import Mathlib

/-!
A shallow embedding of `Organizer.py` and proofs about it.

The script reads a target directory, and for each entry of the initial
listing computes `filename, extension = os.path.splitext(file)`,
strips the leading dot (`extension[1:]`), builds
`destination_folder = os.path.join(path, extension)`, and then either
reports a conflict, moves the entry, or creates the folder and moves
the entry.  Uncaught exceptions from `shutil.move` terminate the run.

The state of the target directory is modelled as an association list
from entry names to nodes (plain files, or directories with the list
of names they contain).  Paths are modelled relative to the target
directory as lists of components appended by `os.path.join`; joining
with the empty extension adds an empty component, which POSIX path
resolution discards, so `resolveRel` filters empty components out.
-/

namespace FileOrganizer

/-- Index of the last occurrence of a character in a list, mirroring the
`rfind` calls inside Python's `os.path.splitext` (`none` when absent). -/
def rfindIdx (c : Char) : List Char → Option Nat
  | [] => none
  | x :: xs =>
    match rfindIdx c xs with
    | some i => some (i + 1)
    | none => if x = c then some 0 else none

/-- The extension part returned by POSIX `os.path.splitext(p)[1]`: the
suffix from the last dot, unless every character between the last path
separator and that dot is itself a dot (so leading dots of a component,
as in `.bashrc`, yield an empty extension). -/
def splitextExt (p : List Char) : List Char :=
  match rfindIdx '.' p with
  | none => []
  | some d =>
    let s : Nat :=
      match rfindIdx '/' p with
      | none => 0
      | some i => i + 1
    if s ≤ d then
      if ((p.drop s).take (d - s)).any (fun ch => ch != '.') then p.drop d
      else []
    else []

/-- The script's extension key: `os.path.splitext(file)[1][1:]`. -/
def extKey (name : String) : String :=
  String.mk ((splitextExt name.data).drop 1)

/-- Modelled from the spec's words, for comparison with `extKey`: the
portion of the name after the final dot, empty when no dot occurs. -/
def specExtKey (name : String) : String :=
  match rfindIdx '.' name.data with
  | none => ""
  | some d => String.mk (name.data.drop (d + 1))

/-- A directory entry of the target directory: a plain file, or a
directory together with the names it contains. -/
inductive Node where
  | file : Node
  | dir (contents : List String) : Node
deriving DecidableEq, Repr

/-- The target directory: its entries in listing order. -/
abbrev FS := List (String × Node)

/-- The names of the top-level entries, as `os.listdir` returns them. -/
def names (fs : FS) : List String := fs.map Prod.fst

/-- Look up the node stored under a top-level name. -/
def lookupNode : FS → String → Option Node
  | [], _ => none
  | (n, nd) :: fs, x => if n = x then some nd else lookupNode fs x

/-- Whether a top-level entry with the given name exists. -/
def existsTop (fs : FS) (n : String) : Bool :=
  (lookupNode fs n).isSome

/-- Whether the top-level directory `d` exists and contains name `n`. -/
def existsIn (fs : FS) (d n : String) : Bool :=
  match lookupNode fs d with
  | some (Node.dir cs) => decide (n ∈ cs)
  | _ => false

/-- POSIX resolution of a path below the target directory given as
`os.path.join` components: empty components (which arise exactly from
joining with an empty extension) denote the directory itself and are
discarded. -/
def resolveRel (l : List String) : List String :=
  l.filter (fun s => !(s == ""))

/-- `os.path.exists` on a resolved path below the target directory.
The empty path is the target directory itself, which exists whenever
the run got past `os.listdir`. -/
def pathExists (fs : FS) : List String → Bool
  | [] => true
  | [n] => existsTop fs n
  | [d, n] => existsIn fs d n
  | _ => false

/-- Remove the top-level entry with the given name (the effect of a
successful rename away from the target's top level). -/
def removeTop : FS → String → FS
  | [], _ => []
  | (n, nd) :: fs, x => if n = x then fs else (n, nd) :: removeTop fs x

/-- Replace the node stored under a top-level name. -/
def setNode : FS → String → Node → FS
  | [], _, _ => []
  | (n, nd) :: fs, x, nd2 => if n = x then (n, nd2) :: fs else (n, nd) :: setNode fs x nd2

/-- Models `shutil.move(os.path.join(path, file), os.path.join(path, ext, file))`
at the two call sites of the script, where the caller knows the
destination path does not exist.  It fails (`none`) when the source is
missing or the destination's parent is not an existing directory; with
an empty extension the destination equals the source, so a missing
destination means a missing source and the rename raises. -/
def moveInto (fs : FS) (ext file : String) : Option FS :=
  match lookupNode fs file with
  | none => none
  | some _ =>
    match lookupNode fs ext with
    | some (Node.dir cs) => some (setNode (removeTop fs file) ext (Node.dir (cs ++ [file])))
    | _ => none

/-- The message printed by the conflict branch of the script. -/
def conflictMsg (file : String) : String :=
  "File \x27" ++ file ++ "\x27 already exists in the destination folder."

/-- Filesystem effects of a run, with paths relative to the target
directory (resolved components). -/
inductive Effect where
  | mkdirEff (p : List String)
  | moveEff (src dst : List String)
deriving DecidableEq, Repr

/-- Outcome of one iteration of the loop body: the new state with the
messages printed and effects performed, or the state at an uncaught
exception. -/
inductive StepOut where
  | ok (fs : FS) (msgs : List String) (effs : List Effect)
  | err (fs : FS) (effs : List Effect)
deriving Repr

/-- The directory state after one iteration, whether or not it raised. -/
def StepOut.state : StepOut → FS
  | StepOut.ok fs _ _ => fs
  | StepOut.err fs _ => fs

/-- The filesystem effects performed during one iteration. -/
def StepOut.effects : StepOut → List Effect
  | StepOut.ok _ _ e => e
  | StepOut.err _ e => e

/-- The messages printed during one iteration. -/
def StepOut.messages : StepOut → List String
  | StepOut.ok _ m _ => m
  | StepOut.err _ _ => []

/-- One iteration of the script's loop body for entry `file`. -/
def processEntry (fs : FS) (file : String) : StepOut :=
  let ext := extKey file
  let destinationFolder := resolveRel [ext]
  if pathExists fs destinationFolder then
    let destinationPath := resolveRel [ext, file]
    if pathExists fs destinationPath then
      StepOut.ok fs [conflictMsg file] []
    else
      match moveInto fs ext file with
      | some fs2 => StepOut.ok fs2 [] [Effect.moveEff [file] [ext, file]]
      | none => StepOut.err fs []
  else
    match moveInto (fs ++ [(ext, Node.dir [])]) ext file with
    | some fs2 =>
        StepOut.ok fs2 [] [Effect.mkdirEff [ext], Effect.moveEff [file] [ext, file]]
    | none => StepOut.err (fs ++ [(ext, Node.dir [])]) [Effect.mkdirEff [ext]]

/-- The result of a whole run: the final directory state, the printed
messages, the filesystem effects, and the entry at which an uncaught
exception aborted the run, if any. -/
structure RunOut where
  fs : FS
  msgs : List String
  effs : List Effect
  failedAt : Option String
deriving DecidableEq, Repr

/-- The script's loop over the (pre-computed) listing.  An exception
aborts the run at the failing entry, keeping the partial state. -/
def runFiles : FS → List String → RunOut
  | fs, [] => ⟨fs, [], [], none⟩
  | fs, f :: rest =>
    match processEntry fs f with
    | StepOut.ok fs2 m e =>
        let r := runFiles fs2 rest
        ⟨r.fs, m ++ r.msgs, e ++ r.effs, r.failedAt⟩
    | StepOut.err fs2 e => ⟨fs2, [], e, some f⟩

/-- A whole run of the script on the target directory: `os.listdir`
snapshots the names, then the loop processes them. -/
def run (fs : FS) : RunOut :=
  runFiles fs (names fs)

/-- The script including the fallible `os.listdir` call: when the target
directory is missing or unreadable, `os.listdir` raises before any entry
is processed and the directory state is untouched. -/
inductive ProgResult where
  | accessError (fs : FS)
  | completed (out : RunOut)
deriving DecidableEq, Repr

/-- Top-level behavior: `readable` models whether `os.listdir path`
succeeds. -/
def organizer (readable : Bool) (fs : FS) : ProgResult :=
  if readable then ProgResult.completed (run fs) else ProgResult.accessError fs

/-! Facts about `rfindIdx` and the extension key. -/

theorem not_mem_of_rfindIdx_eq_none {c : Char} :
    ∀ {l : List Char}, rfindIdx c l = none → c ∉ l := by
  intro l
  induction l with
  | nil => intro _; simp
  | cons x xs ih =>
    intro h
    simp only [rfindIdx] at h
    cases hx : rfindIdx c xs with
    | some i => rw [hx] at h; simp at h
    | none =>
      rw [hx] at h
      by_cases hxc : x = c
      · simp [hxc] at h
      · simp only [List.mem_cons, not_or]
        exact ⟨fun he => hxc he.symm, ih hx⟩

theorem rfindIdx_eq_none_of_not_mem {c : Char} :
    ∀ {l : List Char}, c ∉ l → rfindIdx c l = none := by
  intro l
  induction l with
  | nil => intro _; rfl
  | cons x xs ih =>
    intro h
    simp only [List.mem_cons, not_or] at h
    simp only [rfindIdx, ih h.2]
    have hxc : ¬x = c := fun he => h.1 he.symm
    simp [hxc]

theorem rfindIdx_drop {c : Char} :
    ∀ {l : List Char} {i : Nat}, rfindIdx c l = some i →
      l.drop i = c :: l.drop (i + 1) := by
  intro l
  induction l with
  | nil => intro i h; simp [rfindIdx] at h
  | cons x xs ih =>
    intro i h
    simp only [rfindIdx] at h
    cases hx : rfindIdx c xs with
    | some k =>
      rw [hx] at h
      obtain rfl : k + 1 = i := Option.some.inj h
      simpa using ih hx
    | none =>
      rw [hx] at h
      by_cases hxc : x = c
      · simp only [hxc, if_pos rfl] at h
        obtain rfl : 0 = i := Option.some.inj h
        simp [hxc]
      · simp [hxc] at h

theorem not_mem_drop_of_rfindIdx {c : Char} :
    ∀ {l : List Char} {i : Nat}, rfindIdx c l = some i → c ∉ l.drop (i + 1) := by
  intro l
  induction l with
  | nil => intro i h; simp [rfindIdx] at h
  | cons x xs ih =>
    intro i h
    simp only [rfindIdx] at h
    cases hx : rfindIdx c xs with
    | some k =>
      rw [hx] at h
      obtain rfl : k + 1 = i := Option.some.inj h
      simpa using ih hx
    | none =>
      rw [hx] at h
      by_cases hxc : x = c
      · simp only [hxc, if_pos rfl] at h
        obtain rfl : 0 = i := Option.some.inj h
        simpa using not_mem_of_rfindIdx_eq_none hx
      · simp [hxc] at h

theorem extKey_data (s : String) :
    (extKey s).data = (splitextExt s.data).drop 1 := rfl

theorem extKey_no_dot (s : String) : '.' ∉ (extKey s).data := by
  rw [extKey_data]
  unfold splitextExt
  cases h : rfindIdx '.' s.data with
  | none => simp
  | some d =>
    simp only []
    split
    · split
      · rw [List.drop_drop]
        have := not_mem_drop_of_rfindIdx h
        simpa [Nat.add_comm] using this
      · simp
    · simp

theorem extKey_of_no_dot {s : String} (h : '.' ∉ s.data) : extKey s = "" := by
  have : splitextExt s.data = [] := by
    unfold splitextExt
    rw [rfindIdx_eq_none_of_not_mem h]
  unfold extKey
  rw [this]
  rfl

theorem dot_mem_of_extKey_ne {s : String} (h : extKey s ≠ "") : '.' ∈ s.data := by
  by_contra hc
  exact h (extKey_of_no_dot hc)

theorem ne_of_dot {a b : String} (ha : '.' ∈ a.data) (hb : '.' ∉ b.data) : a ≠ b := by
  intro h
  rw [h] at ha
  exact hb ha

theorem ne_empty_of_extKey_ne {f : String} (h : extKey f ≠ "") : f ≠ "" := by
  intro hf
  rw [hf] at h
  exact h rfl

theorem extKey_extKey (s : String) : extKey (extKey s) = "" :=
  extKey_of_no_dot (extKey_no_dot s)

/-! Facts about the directory state. -/

theorem existsTop_iff_mem_names {fs : FS} {x : String} :
    existsTop fs x = true ↔ x ∈ names fs := by
  induction fs with
  | nil => simp [existsTop, lookupNode, names]
  | cons p fs ih =>
    obtain ⟨n, nd⟩ := p
    simp only [existsTop, lookupNode, names, List.map_cons, List.mem_cons] at ih ⊢
    by_cases h : n = x
    · simp [h]
    · rw [if_neg h, ih]
      constructor
      · exact Or.inr
      · rintro (rfl | hx)
        · exact absurd rfl h
        · exact hx

theorem existsTop_of_mem_names {fs : FS} {x : String} (h : x ∈ names fs) :
    existsTop fs x = true :=
  existsTop_iff_mem_names.mpr h

theorem lookupNode_isSome_of_mem {fs : FS} {x : String} (h : x ∈ names fs) :
    (lookupNode fs x).isSome = true :=
  existsTop_of_mem_names h

theorem lookupNode_removeTop_ne {fs : FS} {x y : String} (h : x ≠ y) :
    lookupNode (removeTop fs y) x = lookupNode fs x := by
  induction fs with
  | nil => rfl
  | cons p fs ih =>
    obtain ⟨n, nd⟩ := p
    simp only [removeTop]
    by_cases hn : n = y
    · rw [if_pos hn, lookupNode]
      rw [if_neg (by rw [hn]; exact fun he => h he.symm)]
    · rw [if_neg hn, lookupNode, lookupNode]
      by_cases hx : n = x
      · rw [if_pos hx, if_pos hx]
      · rw [if_neg hx, if_neg hx, ih]

theorem lookupNode_removeTop_self {fs : FS} {y : String}
    (h : (names fs).Nodup) : lookupNode (removeTop fs y) y = none := by
  induction fs with
  | nil => rfl
  | cons p fs ih =>
    obtain ⟨n, nd⟩ := p
    simp only [names, List.map_cons, List.nodup_cons] at h
    simp only [removeTop]
    by_cases hn : n = y
    · rw [if_pos hn]
      subst hn
      cases hl : lookupNode fs n with
      | none => rfl
      | some nd2 =>
        exact absurd (existsTop_iff_mem_names.mp (by simp [existsTop, hl])) h.1
    · rw [if_neg hn, lookupNode, if_neg hn]
      exact ih h.2

theorem names_setNode (fs : FS) (y : String) (nd : Node) :
    names (setNode fs y nd) = names fs := by
  induction fs with
  | nil => rfl
  | cons p fs ih =>
    obtain ⟨n, nd0⟩ := p
    simp only [setNode]
    by_cases hn : n = y
    · rw [if_pos hn]; rfl
    · rw [if_neg hn]
      simp only [names, List.map_cons] at ih ⊢
      rw [ih]

theorem lookupNode_setNode_ne {fs : FS} {x y : String} (h : x ≠ y) (nd : Node) :
    lookupNode (setNode fs y nd) x = lookupNode fs x := by
  induction fs with
  | nil => rfl
  | cons p fs ih =>
    obtain ⟨n, nd0⟩ := p
    simp only [setNode]
    by_cases hn : n = y
    · rw [if_pos hn, lookupNode, lookupNode,
        if_neg (by rw [hn]; exact fun he => h he.symm),
        if_neg (by rw [hn]; exact fun he => h he.symm)]
    · rw [if_neg hn, lookupNode, lookupNode]
      by_cases hx : n = x
      · rw [if_pos hx, if_pos hx]
      · rw [if_neg hx, if_neg hx, ih]

theorem lookupNode_setNode_self {fs : FS} {y : String} {nd0 : Node}
    (h : lookupNode fs y = some nd0) (nd : Node) :
    lookupNode (setNode fs y nd) y = some nd := by
  induction fs with
  | nil => simp [lookupNode] at h
  | cons p fs ih =>
    obtain ⟨n, nd1⟩ := p
    simp only [setNode]
    by_cases hn : n = y
    · rw [if_pos hn, lookupNode, if_pos hn]
    · rw [if_neg hn, lookupNode, if_neg hn]
      rw [lookupNode, if_neg hn] at h
      exact ih h

theorem lookupNode_append_left {fs gs : FS} {x : String} {nd : Node}
    (h : lookupNode fs x = some nd) : lookupNode (fs ++ gs) x = some nd := by
  induction fs with
  | nil => simp [lookupNode] at h
  | cons p fs ih =>
    obtain ⟨n, nd0⟩ := p
    rw [List.cons_append, lookupNode]
    rw [lookupNode] at h
    by_cases hn : n = x
    · rw [if_pos hn] at h ⊢; exact h
    · rw [if_neg hn] at h ⊢; exact ih h

theorem lookupNode_append_right {fs gs : FS} {x : String}
    (h : lookupNode fs x = none) : lookupNode (fs ++ gs) x = lookupNode gs x := by
  induction fs with
  | nil => rfl
  | cons p fs ih =>
    obtain ⟨n, nd0⟩ := p
    rw [List.cons_append, lookupNode]
    rw [lookupNode] at h
    by_cases hn : n = x
    · rw [if_pos hn] at h; simp at h
    · rw [if_neg hn] at h ⊢; exact ih h

theorem names_append (fs gs : FS) : names (fs ++ gs) = names fs ++ names gs := by
  simp [names]

theorem names_removeTop_sublist (fs : FS) (y : String) :
    List.Sublist (names (removeTop fs y)) (names fs) := by
  induction fs with
  | nil => simp [removeTop]
  | cons p fs ih =>
    obtain ⟨n, nd⟩ := p
    simp only [removeTop]
    by_cases hn : n = y
    · rw [if_pos hn]
      exact (List.Sublist.refl _).cons n
    · rw [if_neg hn]
      simp only [names, List.map_cons]
      exact List.Sublist.cons₂ _ ih

theorem nodup_names_removeTop {fs : FS} {y : String} (h : (names fs).Nodup) :
    (names (removeTop fs y)).Nodup :=
  List.Nodup.sublist (names_removeTop_sublist fs y) h

theorem mem_names_removeTop {fs : FS} {x y : String}
    (h : x ∈ names (removeTop fs y)) : x ∈ names fs :=
  (names_removeTop_sublist fs y).subset h

/-! Facts about path resolution. -/

theorem resolveRel_nil : resolveRel [] = [] := rfl

theorem resolveRel_cons_empty (l : List String) :
    resolveRel ("" :: l) = resolveRel l := by
  simp [resolveRel]

theorem resolveRel_cons_ne {s : String} (h : s ≠ "") (l : List String) :
    resolveRel (s :: l) = s :: resolveRel l := by
  simp [resolveRel, h]

theorem pathExists_nil (fs : FS) : pathExists fs [] = true := rfl

theorem pathExists_single (fs : FS) (n : String) :
    pathExists fs [n] = existsTop fs n := rfl

theorem pathExists_pair (fs : FS) (d n : String) :
    pathExists fs [d, n] = existsIn fs d n := rfl

theorem resolveRel_single (s : String) :
    resolveRel [s] = if s = "" then [] else [s] := by
  by_cases h : s = "" <;> simp [resolveRel, h]

/-! Case analysis of one loop iteration. -/

/-- One iteration has exactly one of five shapes: a reported conflict
leaving the state unchanged, a move into an existing folder, a
`makedirs` followed by a move, an exception with unchanged state, or an
exception right after `makedirs`. -/
theorem step_shape (fs : FS) (g : String) :
    (pathExists fs (resolveRel [extKey g]) = true ∧
       pathExists fs (resolveRel [extKey g, g]) = true ∧
       processEntry fs g = StepOut.ok fs [conflictMsg g] [])
    ∨ (∃ cs, extKey g ≠ "" ∧ lookupNode fs (extKey g) = some (Node.dir cs) ∧
        decide (g ∈ cs) = false ∧
        processEntry fs g =
          StepOut.ok (setNode (removeTop fs g) (extKey g) (Node.dir (cs ++ [g]))) []
            [Effect.moveEff [g] [extKey g, g]])
    ∨ (extKey g ≠ "" ∧ lookupNode fs (extKey g) = none ∧
        processEntry fs g =
          StepOut.ok (setNode (removeTop (fs ++ [(extKey g, Node.dir [])]) g) (extKey g)
              (Node.dir [g])) []
            [Effect.mkdirEff [extKey g], Effect.moveEff [g] [extKey g, g]])
    ∨ processEntry fs g = StepOut.err fs []
    ∨ (extKey g ≠ "" ∧ lookupNode fs (extKey g) = none ∧
        processEntry fs g = StepOut.err (fs ++ [(extKey g, Node.dir [])])
          [Effect.mkdirEff [extKey g]]) := by
  cases h1 : pathExists fs (resolveRel [extKey g]) with
  | true =>
    cases h2 : pathExists fs (resolveRel [extKey g, g]) with
    | true => exact Or.inl ⟨rfl, rfl, by simp [processEntry, h1, h2]⟩
    | false =>
      cases hg : lookupNode fs g with
      | none =>
        refine Or.inr (Or.inr (Or.inr (Or.inl ?_)))
        simp [processEntry, h1, h2, moveInto, hg]
      | some nd =>
        cases hx : lookupNode fs (extKey g) with
        | none =>
          refine Or.inr (Or.inr (Or.inr (Or.inl ?_)))
          simp [processEntry, h1, h2, moveInto, hg, hx]
        | some nd2 =>
          cases nd2 with
          | file =>
            refine Or.inr (Or.inr (Or.inr (Or.inl ?_)))
            simp [processEntry, h1, h2, moveInto, hg, hx]
          | dir cs =>
            have hext : extKey g ≠ "" := by
              intro he
              by_cases hge : g = ""
              · rw [he, hge] at h2
                simp [resolveRel, pathExists] at h2
              · rw [he, resolveRel_cons_empty, resolveRel_cons_ne hge,
                  resolveRel_nil] at h2
                rw [pathExists_single] at h2
                unfold existsTop at h2
                rw [hg] at h2
                simp at h2
            have hge : g ≠ "" := ne_empty_of_extKey_ne hext
            have hmem : decide (g ∈ cs) = false := by
              rw [resolveRel_cons_ne hext, resolveRel_cons_ne hge,
                resolveRel_nil, pathExists_pair] at h2
              unfold existsIn at h2
              rw [hx] at h2
              exact h2
            refine Or.inr (Or.inl ⟨cs, hext, rfl, hmem, ?_⟩)
            simp [processEntry, h1, h2, moveInto, hg, hx]
  | false =>
    have hext : extKey g ≠ "" := by
      intro he
      rw [he] at h1
      simp [resolveRel, pathExists] at h1
    have hres : resolveRel [extKey g] = [extKey g] := by
      rw [resolveRel_cons_ne hext, resolveRel_nil]
    have hlook : lookupNode fs (extKey g) = none := by
      rw [hres, pathExists_single] at h1
      unfold existsTop at h1
      cases hl : lookupNode fs (extKey g) with
      | none => rfl
      | some nd => rw [hl] at h1; simp at h1
    have hxapp : lookupNode (fs ++ [(extKey g, Node.dir [])]) (extKey g) =
        some (Node.dir []) := by
      rw [lookupNode_append_right hlook]
      simp [lookupNode]
    cases hgapp : lookupNode (fs ++ [(extKey g, Node.dir [])]) g with
    | none =>
      refine Or.inr (Or.inr (Or.inr (Or.inr ⟨hext, hlook, ?_⟩)))
      simp [processEntry, h1, moveInto, hgapp]
    | some nd =>
      refine Or.inr (Or.inr (Or.inl ⟨hext, hlook, ?_⟩))
      simp [processEntry, h1, moveInto, hgapp, hxapp]


/-! Per-step preservation lemmas. -/

theorem not_mem_names_of_lookup_none {fs : FS} {x : String}
    (h : lookupNode fs x = none) : x ∉ names fs := by
  intro hmem
  have := existsTop_of_mem_names hmem
  unfold existsTop at this
  rw [h] at this
  simp at this

theorem lookupNode_append_singleton_ne {fs : FS} {x e : String} (h : x ≠ e)
    (nd : Node) : lookupNode (fs ++ [(e, nd)]) x = lookupNode fs x := by
  cases hl : lookupNode fs x with
  | some nd0 => exact lookupNode_append_left hl
  | none =>
    rw [lookupNode_append_right hl, lookupNode,
      if_neg (fun he => h he.symm)]
    rfl

theorem existsIn_eq_true_iff {fs : FS} {d n : String} :
    existsIn fs d n = true ↔
      ∃ cs, lookupNode fs d = some (Node.dir cs) ∧ n ∈ cs := by
  unfold existsIn
  cases hl : lookupNode fs d with
  | none => simp
  | some nd =>
    cases nd with
    | file => simp
    | dir cs =>
      simp only [decide_eq_true_eq]
      constructor
      · exact fun h => ⟨cs, rfl, h⟩
      · rintro ⟨cs2, hcs, hmem⟩
        obtain rfl : cs = cs2 := Node.dir.inj (Option.some.inj hcs)
        exact hmem

/-- The self-conflict of an entry with an empty extension key: the
destination folder resolves to the target directory itself, the
destination path to the entry itself, so the conflict branch fires and
nothing changes. -/
theorem step_emptyKey {fs : FS} {g : String} (hk : extKey g = "")
    (hg : existsTop fs g = true) :
    processEntry fs g = StepOut.ok fs [conflictMsg g] [] := by
  by_cases hge : g = ""
  · subst hge
    simp only [processEntry, hk]
    simp [resolveRel, pathExists]
  · simp only [processEntry, hk]
    rw [resolveRel_cons_empty, resolveRel_nil, resolveRel_cons_empty,
      resolveRel_cons_ne hge, resolveRel_nil]
    simp [pathExists, hg]

/-- A bystander name (not the processed entry, not its extension key)
keeps its node across one iteration. -/
theorem lookup_step_bystander {fs : FS} {g x : String}
    (hxg : x ≠ g) (hxe : x ≠ extKey g) :
    lookupNode (processEntry fs g).state x = lookupNode fs x := by
  rcases step_shape fs g with ⟨-, -, hstep⟩ | ⟨cs, hext, hx, -, hstep⟩ |
    ⟨hext, hx, hstep⟩ | hstep | ⟨hext, hx, hstep⟩
  · rw [hstep]
    rfl
  · rw [hstep]
    show lookupNode (setNode (removeTop fs g) (extKey g) (Node.dir (cs ++ [g]))) x =
      lookupNode fs x
    rw [lookupNode_setNode_ne hxe, lookupNode_removeTop_ne hxg]
  · rw [hstep]
    show lookupNode (setNode (removeTop (fs ++ [(extKey g, Node.dir [])]) g) (extKey g)
        (Node.dir [g])) x = lookupNode fs x
    rw [lookupNode_setNode_ne hxe, lookupNode_removeTop_ne hxg,
      lookupNode_append_singleton_ne hxe]
  · rw [hstep]
    rfl
  · rw [hstep]
    show lookupNode (fs ++ [(extKey g, Node.dir [])]) x = lookupNode fs x
    rw [lookupNode_append_singleton_ne hxe]

/-- A dotted bystander name keeps its node across one iteration (its
name can never equal an extension key, which is dot-free). -/
theorem lookup_step_dotted {fs : FS} {g x : String}
    (hdot : '.' ∈ x.data) (hxg : x ≠ g) :
    lookupNode (processEntry fs g).state x = lookupNode fs x :=
  lookup_step_bystander hxg (ne_of_dot hdot (extKey_no_dot g))

/-- Any name other than the processed entry stays present across one
iteration. -/
theorem existsTop_step_of_ne {fs : FS} {g x : String} (hxg : x ≠ g)
    (h : existsTop fs x = true) :
    existsTop (processEntry fs g).state x = true := by
  by_cases hxe : x = extKey g
  · subst hxe
    rcases step_shape fs g with ⟨-, -, hstep⟩ | ⟨cs, hext, hx, -, hstep⟩ |
      ⟨hext, hx, hstep⟩ | hstep | ⟨hext, hx, hstep⟩
    · rw [hstep]; exact h
    · rw [hstep]
      show existsTop (setNode (removeTop fs g) (extKey g) (Node.dir (cs ++ [g])))
        (extKey g) = true
      unfold existsTop
      rw [lookupNode_setNode_self
        (by rw [lookupNode_removeTop_ne
          (ne_of_dot (dot_mem_of_extKey_ne hext) (extKey_no_dot g)).symm]; exact hx)]
      rfl
    · rw [hstep]
      show existsTop (setNode (removeTop (fs ++ [(extKey g, Node.dir [])]) g) (extKey g)
        (Node.dir [g])) (extKey g) = true
      unfold existsTop
      rw [lookupNode_setNode_self
        (by rw [lookupNode_removeTop_ne
            (ne_of_dot (dot_mem_of_extKey_ne hext) (extKey_no_dot g)).symm,
            lookupNode_append_right hx, lookupNode, if_pos rfl])]
      rfl
    · rw [hstep]; exact h
    · rw [hstep]
      show existsTop (fs ++ [(extKey g, Node.dir [])]) (extKey g) = true
      unfold existsTop
      rw [lookupNode_append_right hx, lookupNode, if_pos rfl]
      rfl
  · unfold existsTop
    rw [lookup_step_bystander hxg hxe]
    exact h

/-- Membership in a dot-free folder is stable across one iteration:
a dot-free name is never moved away, and folder contents only grow. -/
theorem existsIn_step {fs : FS} {g E n : String} (hE : '.' ∉ E.data)
    (h : existsIn fs E n = true) :
    existsIn (processEntry fs g).state E n = true := by
  obtain ⟨cs, hcs, hmem⟩ := existsIn_eq_true_iff.mp h
  rcases step_shape fs g with ⟨-, -, hstep⟩ | ⟨cs2, hext, hx, -, hstep⟩ |
    ⟨hext, hx, hstep⟩ | hstep | ⟨hext, hx, hstep⟩
  · rw [hstep]; exact h
  · rw [hstep]
    show existsIn (setNode (removeTop fs g) (extKey g) (Node.dir (cs2 ++ [g]))) E n = true
    have hgE : E ≠ g := (ne_of_dot (dot_mem_of_extKey_ne hext) hE).symm
    by_cases hEe : E = extKey g
    · subst hEe
      obtain rfl : cs = cs2 := by
        rw [hcs] at hx
        exact Node.dir.inj (Option.some.inj hx)
      apply existsIn_eq_true_iff.mpr
      refine ⟨cs ++ [g], ?_, List.mem_append_left _ hmem⟩
      rw [lookupNode_setNode_self (by rw [lookupNode_removeTop_ne hgE]; exact hcs)]
    · apply existsIn_eq_true_iff.mpr
      refine ⟨cs, ?_, hmem⟩
      rw [lookupNode_setNode_ne hEe, lookupNode_removeTop_ne hgE]
      exact hcs
  · rw [hstep]
    show existsIn (setNode (removeTop (fs ++ [(extKey g, Node.dir [])]) g) (extKey g)
      (Node.dir [g])) E n = true
    have hgE : E ≠ g := (ne_of_dot (dot_mem_of_extKey_ne hext) hE).symm
    have hEe : E ≠ extKey g := fun he => by rw [he, hx] at hcs; cases hcs
    apply existsIn_eq_true_iff.mpr
    refine ⟨cs, ?_, hmem⟩
    rw [lookupNode_setNode_ne hEe, lookupNode_removeTop_ne hgE,
      lookupNode_append_singleton_ne hEe]
    exact hcs
  · rw [hstep]; exact h
  · rw [hstep]
    show existsIn (fs ++ [(extKey g, Node.dir [])]) E n = true
    apply existsIn_eq_true_iff.mpr
    exact ⟨cs, lookupNode_append_left hcs, hmem⟩

/-- The names after one iteration come from the old names or the
processed entry's extension key (created by `makedirs`). -/
theorem mem_names_step {fs : FS} {g x : String}
    (h : x ∈ names (processEntry fs g).state) :
    x ∈ names fs ∨ x = extKey g := by
  rcases step_shape fs g with ⟨-, -, hstep⟩ | ⟨cs, hext, hx, -, hstep⟩ |
    ⟨hext, hx, hstep⟩ | hstep | ⟨hext, hx, hstep⟩ <;> rw [hstep] at h
  · exact Or.inl h
  · rw [show (StepOut.ok (setNode (removeTop fs g) (extKey g) (Node.dir (cs ++ [g]))) []
        [Effect.moveEff [g] [extKey g, g]]).state =
        setNode (removeTop fs g) (extKey g) (Node.dir (cs ++ [g])) from rfl,
      names_setNode] at h
    exact Or.inl (mem_names_removeTop h)
  · rw [show (StepOut.ok (setNode (removeTop (fs ++ [(extKey g, Node.dir [])]) g)
        (extKey g) (Node.dir [g])) []
        [Effect.mkdirEff [extKey g], Effect.moveEff [g] [extKey g, g]]).state =
        setNode (removeTop (fs ++ [(extKey g, Node.dir [])]) g) (extKey g)
          (Node.dir [g]) from rfl,
      names_setNode] at h
    have := mem_names_removeTop h
    rw [names_append] at this
    rcases List.mem_append.mp this with h2 | h2
    · exact Or.inl h2
    · simp only [names, List.map_cons, List.map_nil, List.mem_singleton] at h2
      exact Or.inr h2
  · exact Or.inl h
  · rw [show (StepOut.err (fs ++ [(extKey g, Node.dir [])])
        [Effect.mkdirEff [extKey g]]).state = fs ++ [(extKey g, Node.dir [])] from rfl,
      names_append] at h
    rcases List.mem_append.mp h with h2 | h2
    · exact Or.inl h2
    · simp only [names, List.map_cons, List.map_nil, List.mem_singleton] at h2
      exact Or.inr h2

/-- Listing-order names stay duplicate-free across one iteration. -/
theorem nodup_names_step {fs : FS} {g : String} (h : (names fs).Nodup) :
    (names (processEntry fs g).state).Nodup := by
  rcases step_shape fs g with ⟨-, -, hstep⟩ | ⟨cs, hext, hx, -, hstep⟩ |
    ⟨hext, hx, hstep⟩ | hstep | ⟨hext, hx, hstep⟩ <;> rw [hstep]
  · exact h
  · show (names (setNode (removeTop fs g) (extKey g) (Node.dir (cs ++ [g])))).Nodup
    rw [names_setNode]
    exact nodup_names_removeTop h
  · show (names (setNode (removeTop (fs ++ [(extKey g, Node.dir [])]) g) (extKey g)
      (Node.dir [g]))).Nodup
    rw [names_setNode]
    apply nodup_names_removeTop
    rw [names_append]
    refine List.Nodup.append h (List.nodup_singleton _) ?_
    intro a ha hb
    simp only [names, List.map_cons, List.map_nil, List.mem_singleton] at hb
    subst hb
    exact not_mem_names_of_lookup_none hx ha
  · exact h
  · show (names (fs ++ [(extKey g, Node.dir [])])).Nodup
    rw [names_append]
    refine List.Nodup.append h (List.nodup_singleton _) ?_
    intro a ha hb
    simp only [names, List.map_cons, List.map_nil, List.mem_singleton] at hb
    subst hb
    exact not_mem_names_of_lookup_none hx ha

/-! Run-level lemmas. -/

theorem runFiles_nil (fs : FS) : runFiles fs [] = ⟨fs, [], [], none⟩ := rfl

theorem runFiles_cons_ok {fs fs2 : FS} {f : String} {m : List String}
    {e : List Effect} (rest : List String)
    (h : processEntry fs f = StepOut.ok fs2 m e) :
    runFiles fs (f :: rest) =
      ⟨(runFiles fs2 rest).fs, m ++ (runFiles fs2 rest).msgs,
        e ++ (runFiles fs2 rest).effs, (runFiles fs2 rest).failedAt⟩ := by
  simp only [runFiles, h]

theorem runFiles_cons_err {fs fs2 : FS} {f : String} {e : List Effect}
    (rest : List String) (h : processEntry fs f = StepOut.err fs2 e) :
    runFiles fs (f :: rest) = ⟨fs2, [], e, some f⟩ := by
  simp only [runFiles, h]

/-- Every effect of one iteration is the creation of the entry's
extension-key folder or the move of the entry into it, and the key is
then nonempty. -/
theorem effects_step (fs : FS) (g : String) :
    ∀ eff ∈ (processEntry fs g).effects,
      (extKey g ≠ "" ∧ eff = Effect.mkdirEff [extKey g]) ∨
      (extKey g ≠ "" ∧ eff = Effect.moveEff [g] [extKey g, g]) := by
  rcases step_shape fs g with ⟨-, -, hstep⟩ | ⟨cs, hext, hx, -, hstep⟩ |
    ⟨hext, hx, hstep⟩ | hstep | ⟨hext, hx, hstep⟩ <;> rw [hstep] <;>
    intro eff heff
  · simp [StepOut.effects] at heff
  · simp only [StepOut.effects, List.mem_singleton] at heff
    exact Or.inr ⟨hext, heff⟩
  · simp only [StepOut.effects, List.mem_cons, List.mem_singleton,
      List.not_mem_nil, or_false] at heff
    rcases heff with h2 | h2
    · exact Or.inl ⟨hext, h2⟩
    · exact Or.inr ⟨hext, h2⟩
  · simp [StepOut.effects] at heff
  · simp only [StepOut.effects, List.mem_singleton] at heff
    exact Or.inl ⟨hext, heff⟩

/-- Every message of one iteration is the conflict message for the
processed entry. -/
theorem messages_step (fs : FS) (g : String) :
    ∀ msg ∈ (processEntry fs g).messages, msg = conflictMsg g := by
  rcases step_shape fs g with ⟨-, -, hstep⟩ | ⟨cs, hext, hx, -, hstep⟩ |
    ⟨hext, hx, hstep⟩ | hstep | ⟨hext, hx, hstep⟩ <;> rw [hstep] <;>
    intro msg hmsg <;> simp only [StepOut.messages] at hmsg
  · rw [List.mem_singleton] at hmsg
    exact hmsg
  · simp at hmsg
  · simp at hmsg
  · simp at hmsg
  · simp at hmsg

theorem conflictMsg_inj {a b : String} (h : conflictMsg a = conflictMsg b) :
    a = b := by
  unfold conflictMsg at h
  have hd := congrArg String.data h
  simp only [String.data_append] at hd
  exact String.ext (List.append_cancel_left (List.append_cancel_right hd))

/-- Membership in a dot-free folder is stable across the rest of a run. -/
theorem runFiles_existsIn {E n : String} (hE : '.' ∉ E.data) :
    ∀ (rem : List String) (fs : FS), existsIn fs E n = true →
      existsIn (runFiles fs rem).fs E n = true := by
  intro rem
  induction rem with
  | nil => intro fs h; exact h
  | cons g rest ih =>
    intro fs h
    cases hpe : processEntry fs g with
    | ok fs2 m e =>
      rw [runFiles_cons_ok rest hpe]
      refine ih fs2 ?_
      have := @existsIn_step fs g E n hE h
      rw [hpe] at this
      exact this
    | err fs2 e =>
      rw [runFiles_cons_err rest hpe]
      have := @existsIn_step fs g E n hE h
      rw [hpe] at this
      exact this

/-- A dotted name not among the remaining entries keeps its node across
the rest of a run. -/
theorem runFiles_lookup_dotted {x : String} (hdot : '.' ∈ x.data) :
    ∀ (rem : List String) (fs : FS), x ∉ rem →
      lookupNode (runFiles fs rem).fs x = lookupNode fs x := by
  intro rem
  induction rem with
  | nil => intro fs _; rfl
  | cons g rest ih =>
    intro fs hx
    have hxg : x ≠ g := fun he => hx (he ▸ List.mem_cons_self g rest)
    have hxr : x ∉ rest := fun hr => hx (List.mem_cons_of_mem g hr)
    cases hpe : processEntry fs g with
    | ok fs2 m e =>
      rw [runFiles_cons_ok rest hpe]
      have hstep := @lookup_step_dotted fs g x hdot hxg
      rw [hpe] at hstep
      calc lookupNode (runFiles fs2 rest).fs x = lookupNode fs2 x := ih fs2 hxr
        _ = lookupNode fs x := hstep
    | err fs2 e =>
      rw [runFiles_cons_err rest hpe]
      have hstep := @lookup_step_dotted fs g x hdot hxg
      rw [hpe] at hstep
      exact hstep

/-- A present name not among the remaining entries is still present
after the rest of a run. -/
theorem runFiles_existsTop {x : String} :
    ∀ (rem : List String) (fs : FS), x ∉ rem → existsTop fs x = true →
      existsTop (runFiles fs rem).fs x = true := by
  intro rem
  induction rem with
  | nil => intro fs _ h; exact h
  | cons g rest ih =>
    intro fs hx h
    have hxg : x ≠ g := fun he => hx (he ▸ List.mem_cons_self g rest)
    have hxr : x ∉ rest := fun hr => hx (List.mem_cons_of_mem g hr)
    cases hpe : processEntry fs g with
    | ok fs2 m e =>
      rw [runFiles_cons_ok rest hpe]
      refine ih fs2 hxr ?_
      have := existsTop_step_of_ne hxg h
      rw [hpe] at this
      exact this
    | err fs2 e =>
      rw [runFiles_cons_err rest hpe]
      have := existsTop_step_of_ne hxg h
      rw [hpe] at this
      exact this

/-- An absent dotted name not among the remaining entries stays absent:
only dot-free extension-key folders are ever created. -/
theorem runFiles_not_existsTop {x : String} (hdot : '.' ∈ x.data) :
    ∀ (rem : List String) (fs : FS), x ∉ rem → existsTop fs x = false →
      existsTop (runFiles fs rem).fs x = false := by
  intro rem
  induction rem with
  | nil => intro fs _ h; exact h
  | cons g rest ih =>
    intro fs hx h
    have hxg : x ≠ g := fun he => hx (he ▸ List.mem_cons_self g rest)
    have hxr : x ∉ rest := fun hr => hx (List.mem_cons_of_mem g hr)
    cases hpe : processEntry fs g with
    | ok fs2 m e =>
      rw [runFiles_cons_ok rest hpe]
      refine ih fs2 hxr ?_
      have hstep := @lookup_step_dotted fs g x hdot hxg
      rw [hpe] at hstep
      unfold existsTop at h ⊢
      rw [show lookupNode fs2 x =
        lookupNode (StepOut.ok fs2 m e).state x from rfl, hstep]
      exact h
    | err fs2 e =>
      rw [runFiles_cons_err rest hpe]
      have hstep := @lookup_step_dotted fs g x hdot hxg
      rw [hpe] at hstep
      unfold existsTop at h ⊢
      rw [show lookupNode fs2 x =
        lookupNode (StepOut.err fs2 e).state x from rfl, hstep]
      exact h

/-- No move effect with a given source is emitted while the source name
is not among the remaining entries. -/
theorem runFiles_no_moveEff {x : String} :
    ∀ (rem : List String) (fs : FS), x ∉ rem →
      ∀ d, Effect.moveEff [x] d ∉ (runFiles fs rem).effs := by
  intro rem
  induction rem with
  | nil => intro fs _ d h; simp [runFiles_nil] at h
  | cons g rest ih =>
    intro fs hx d h
    have hxg : x ≠ g := fun he => hx (he ▸ List.mem_cons_self g rest)
    have hxr : x ∉ rest := fun hr => hx (List.mem_cons_of_mem g hr)
    cases hpe : processEntry fs g with
    | ok fs2 m e =>
      rw [runFiles_cons_ok rest hpe] at h
      rcases List.mem_append.mp h with h2 | h2
      · have := effects_step fs g (Effect.moveEff [x] d) (by rw [hpe]; exact h2)
        rcases this with ⟨-, habs⟩ | ⟨-, habs⟩
        · cases habs
        · exact hxg (List.cons.inj (Effect.moveEff.inj habs).1).1
      · exact ih fs2 hxr d h2
    | err fs2 e =>
      rw [runFiles_cons_err rest hpe] at h
      have := effects_step fs g (Effect.moveEff [x] d) (by rw [hpe]; exact h)
      rcases this with ⟨-, habs⟩ | ⟨-, habs⟩
      · cases habs
      · exact hxg (List.cons.inj (Effect.moveEff.inj habs).1).1

/-- No conflict message for a given entry is printed while that entry is
not among the remaining entries. -/
theorem runFiles_no_conflictMsg {x : String} :
    ∀ (rem : List String) (fs : FS), x ∉ rem →
      conflictMsg x ∉ (runFiles fs rem).msgs := by
  intro rem
  induction rem with
  | nil => intro fs _ h; simp [runFiles_nil] at h
  | cons g rest ih =>
    intro fs hx h
    have hxg : x ≠ g := fun he => hx (he ▸ List.mem_cons_self g rest)
    have hxr : x ∉ rest := fun hr => hx (List.mem_cons_of_mem g hr)
    cases hpe : processEntry fs g with
    | ok fs2 m e =>
      rw [runFiles_cons_ok rest hpe] at h
      rcases List.mem_append.mp h with h2 | h2
      · have := messages_step fs g (conflictMsg x) (by rw [hpe]; exact h2)
        exact hxg (conflictMsg_inj this)
      · exact ih fs2 hxr h2
    | err fs2 e =>
      rw [runFiles_cons_err rest hpe] at h
      simp at h

/-! The main placement lemma. -/

theorem nodup_names_append_singleton {fs : FS} {e : String} {nd : Node}
    (h : (names fs).Nodup) (he : lookupNode fs e = none) :
    (names (fs ++ [(e, nd)])).Nodup := by
  rw [names_append]
  refine List.Nodup.append h (List.nodup_singleton _) ?_
  intro a ha hb
  simp only [names, List.map_cons, List.map_nil, List.mem_singleton] at hb
  subst hb
  exact not_mem_names_of_lookup_none he ha

/-- In an exception-free run over distinct, present names, an entry with
a nonempty extension key whose conflict message is not printed ends up
inside its extension-key folder and is no longer at top level. -/
theorem runFiles_moves {f : String} (hkey : extKey f ≠ "") :
    ∀ (rem : List String) (fs : FS), rem.Nodup → (names fs).Nodup →
      (∀ x ∈ rem, existsTop fs x = true) →
      (runFiles fs rem).failedAt = none →
      f ∈ rem → conflictMsg f ∉ (runFiles fs rem).msgs →
      existsIn (runFiles fs rem).fs (extKey f) f = true ∧
        existsTop (runFiles fs rem).fs f = false := by
  have hfdot : '.' ∈ f.data := dot_mem_of_extKey_ne hkey
  have hfE : f ≠ extKey f := ne_of_dot hfdot (extKey_no_dot f)
  intro rem
  induction rem with
  | nil => intro fs _ _ _ _ hf _; cases hf
  | cons g rest ih =>
    intro fs hnd hfs hpres hsucc hf hnc
    rw [List.nodup_cons] at hnd
    cases hpe : processEntry fs g with
    | err fs2 e =>
      rw [runFiles_cons_err rest hpe] at hsucc
      simp at hsucc
    | ok fs2 m e =>
      rw [runFiles_cons_ok rest hpe] at hsucc hnc ⊢
      have hsucc2 : (runFiles fs2 rest).failedAt = none := hsucc
      have hncr : conflictMsg f ∉ (runFiles fs2 rest).msgs := fun hmem =>
        hnc (List.mem_append_right m hmem)
      by_cases hgf : g = f
      · subst hgf
        rcases step_shape fs g with ⟨-, -, hstep⟩ | ⟨cs, hext, hx, -, hstep⟩ |
          ⟨hext, hx, hstep⟩ | hstep | ⟨hext, hx, hstep⟩
        · rw [hstep] at hpe
          obtain ⟨rfl, rfl, rfl⟩ := StepOut.ok.inj hpe
          exact absurd (List.mem_append_left _ (List.mem_singleton_self _)) hnc
        · rw [hstep] at hpe
          obtain ⟨rfl, rfl, rfl⟩ := StepOut.ok.inj hpe
          constructor
          · exact runFiles_existsIn (extKey_no_dot g) rest _
              (existsIn_eq_true_iff.mpr ⟨cs ++ [g],
                by rw [lookupNode_setNode_self
                  (by rw [lookupNode_removeTop_ne hfE.symm]; exact hx)],
                List.mem_append_right _ (List.mem_singleton_self _)⟩)
          · refine runFiles_not_existsTop hfdot rest _ hnd.1 ?_
            unfold existsTop
            rw [lookupNode_setNode_ne hfE, lookupNode_removeTop_self hfs]
            rfl
        · rw [hstep] at hpe
          obtain ⟨rfl, rfl, rfl⟩ := StepOut.ok.inj hpe
          have hnodapp : (names (fs ++ [(extKey g, Node.dir [])])).Nodup :=
            nodup_names_append_singleton hfs hx
          constructor
          · exact runFiles_existsIn (extKey_no_dot g) rest _
              (existsIn_eq_true_iff.mpr ⟨[g],
                by rw [lookupNode_setNode_self
                  (by rw [lookupNode_removeTop_ne hfE.symm,
                    lookupNode_append_right hx, lookupNode, if_pos rfl])],
                List.mem_singleton_self _⟩)
          · refine runFiles_not_existsTop hfdot rest _ hnd.1 ?_
            unfold existsTop
            rw [lookupNode_setNode_ne hfE, lookupNode_removeTop_self hnodapp]
            rfl
        · rw [hstep] at hpe
          cases hpe
        · rw [hstep] at hpe
          cases hpe
      · have hfr : f ∈ rest := by
          rcases List.mem_cons.mp hf with he | hr
          · exact absurd he.symm hgf
          · exact hr
        exact ih fs2 hnd.2
          (by have := @nodup_names_step fs g hfs; rw [hpe] at this; exact this)
          (fun x hx => by
            have hxg : x ≠ g := fun he => hnd.1 (he ▸ hx)
            have := existsTop_step_of_ne hxg (hpres x (List.mem_cons_of_mem g hx))
            rw [hpe] at this
            exact this)
          hsucc2 hfr hncr

/-! Conflicts. -/

/-- An entry with nonempty key that already conflicts is reported and
skipped, leaving the state unchanged. -/
theorem step_conflict {fs : FS} {g : String} (hk : extKey g ≠ "")
    (hin : existsIn fs (extKey g) g = true) :
    processEntry fs g = StepOut.ok fs [conflictMsg g] [] := by
  have hge : g ≠ "" := ne_empty_of_extKey_ne hk
  obtain ⟨cs, hcs, -⟩ := existsIn_eq_true_iff.mp hin
  simp only [processEntry]
  rw [resolveRel_cons_ne hk, resolveRel_nil, resolveRel_cons_ne hk,
    resolveRel_cons_ne hge, resolveRel_nil, pathExists_single, pathExists_pair]
  unfold existsTop
  rw [hcs, hin]
  simp

/-- In an exception-free run over distinct, present names, an entry with
a nonempty extension key that already has a same-named entry inside its
extension-key folder is reported as a conflict, keeps its node, and the
folder keeps the same-named entry. -/
theorem runFiles_conflict {f : String} (hkey : extKey f ≠ "") :
    ∀ (rem : List String) (fs : FS), rem.Nodup → (names fs).Nodup →
      (∀ x ∈ rem, existsTop fs x = true) →
      (runFiles fs rem).failedAt = none →
      f ∈ rem → existsIn fs (extKey f) f = true →
      conflictMsg f ∈ (runFiles fs rem).msgs ∧
        lookupNode (runFiles fs rem).fs f = lookupNode fs f ∧
        existsIn (runFiles fs rem).fs (extKey f) f = true := by
  have hfdot : '.' ∈ f.data := dot_mem_of_extKey_ne hkey
  intro rem
  induction rem with
  | nil => intro fs _ _ _ _ hf _; cases hf
  | cons g rest ih =>
    intro fs hnd hfs hpres hsucc hf hin
    rw [List.nodup_cons] at hnd
    cases hpe : processEntry fs g with
    | err fs2 e =>
      rw [runFiles_cons_err rest hpe] at hsucc
      simp at hsucc
    | ok fs2 m e =>
      rw [runFiles_cons_ok rest hpe] at hsucc ⊢
      have hsucc2 : (runFiles fs2 rest).failedAt = none := hsucc
      by_cases hgf : g = f
      · subst hgf
        rw [step_conflict hkey hin] at hpe
        obtain ⟨rfl, rfl, rfl⟩ := StepOut.ok.inj hpe
        refine ⟨List.mem_append_left _ (List.mem_singleton_self _), ?_, ?_⟩
        · exact runFiles_lookup_dotted hfdot rest _ hnd.1
        · exact runFiles_existsIn (extKey_no_dot g) rest _ hin
      · have hfr : f ∈ rest := by
          rcases List.mem_cons.mp hf with he | hr
          · exact absurd he.symm hgf
          · exact hr
        have hin2 : existsIn fs2 (extKey f) f = true := by
          have := @existsIn_step fs g (extKey f) f (extKey_no_dot f) hin
          rw [hpe] at this
          exact this
        have hl2 : lookupNode fs2 f = lookupNode fs f := by
          have := @lookup_step_dotted fs g f hfdot (fun he => hgf he.symm)
          rw [hpe] at this
          exact this
        obtain ⟨h1, h2, h3⟩ := ih fs2 hnd.2
          (by have := @nodup_names_step fs g hfs; rw [hpe] at this; exact this)
          (fun x hx => by
            have hxg : x ≠ g := fun he => hnd.1 (he ▸ hx)
            have := existsTop_step_of_ne hxg (hpres x (List.mem_cons_of_mem g hx))
            rw [hpe] at this
            exact this)
          hsucc2 hfr hin2
        exact ⟨List.mem_append_right m h1, h2.trans hl2, h3⟩

/-! Organization invariant and idempotence. -/

theorem not_mem_names_removeTop_self {fs : FS} {g : String}
    (h : (names fs).Nodup) : g ∉ names (removeTop fs g) :=
  not_mem_names_of_lookup_none (lookupNode_removeTop_self h)

/-- After an exception-free run, every top-level name either has an
empty extension key or already has a same-named entry inside its
extension-key folder. -/
theorem runFiles_organized :
    ∀ (rem : List String) (fs : FS), (names fs).Nodup →
      (runFiles fs rem).failedAt = none →
      (∀ x, x ∈ names fs → x ∈ rem ∨ extKey x = "" ∨
        existsIn fs (extKey x) x = true) →
      ∀ x, x ∈ names (runFiles fs rem).fs →
        extKey x = "" ∨ existsIn (runFiles fs rem).fs (extKey x) x = true := by
  intro rem
  induction rem with
  | nil =>
    intro fs _ _ hinv x hx
    rcases hinv x hx with h | h | h
    · cases h
    · exact Or.inl h
    · exact Or.inr h
  | cons g rest ih =>
    intro fs hfs hsucc hinv x hx
    cases hpe : processEntry fs g with
    | err fs2 e =>
      rw [runFiles_cons_err rest hpe] at hsucc
      simp at hsucc
    | ok fs2 m e =>
      rw [runFiles_cons_ok rest hpe] at hsucc hx ⊢
      have hsucc2 : (runFiles fs2 rest).failedAt = none := hsucc
      refine ih fs2
        (by have := @nodup_names_step fs g hfs; rw [hpe] at this; exact this)
        hsucc2 ?_ x hx
      intro y hy
      have hy2 : y ∈ names fs ∨ y = extKey g :=
        @mem_names_step fs g y (by rw [hpe]; exact hy)
      rcases hy2 with hyfs | hyE
      · rcases hinv y hyfs with hyrem | hk | hc
        · rcases List.mem_cons.mp hyrem with hyg | hyr
          · subst hyg
            rcases step_shape fs y with ⟨-, hpath, hstep⟩ | ⟨cs, hext, hlk, -, hstep⟩ |
              ⟨hext, hlk, hstep⟩ | hstep | ⟨hext, hlk, hstep⟩
            · rw [hstep] at hpe
              obtain ⟨rfl, -, -⟩ := StepOut.ok.inj hpe
              by_cases hk : extKey y = ""
              · exact Or.inr (Or.inl hk)
              · refine Or.inr (Or.inr ?_)
                rw [resolveRel_cons_ne hk, resolveRel_cons_ne
                  (ne_empty_of_extKey_ne hk), resolveRel_nil,
                  pathExists_pair] at hpath
                exact hpath
            · rw [hstep] at hpe
              obtain ⟨rfl, -, -⟩ := StepOut.ok.inj hpe
              exfalso
              rw [show names (setNode (removeTop fs y) (extKey y)
                  (Node.dir (cs ++ [y]))) = names (removeTop fs y)
                from names_setNode _ _ _] at hy
              exact not_mem_names_removeTop_self hfs hy
            · rw [hstep] at hpe
              obtain ⟨rfl, -, -⟩ := StepOut.ok.inj hpe
              exfalso
              rw [show names (setNode (removeTop (fs ++ [(extKey y, Node.dir [])]) y)
                  (extKey y) (Node.dir [y])) =
                  names (removeTop (fs ++ [(extKey y, Node.dir [])]) y)
                from names_setNode _ _ _] at hy
              exact not_mem_names_removeTop_self
                (nodup_names_append_singleton hfs hlk) hy
            · rw [hstep] at hpe
              cases hpe
            · rw [hstep] at hpe
              cases hpe
          · exact Or.inl hyr
        · exact Or.inr (Or.inl hk)
        · refine Or.inr (Or.inr ?_)
          have := @existsIn_step fs g (extKey y) y (extKey_no_dot y) hc
          rw [hpe] at this
          exact this
      · subst hyE
        exact Or.inr (Or.inl (extKey_extKey g))

/-- A run in which every listed entry is present and already organized
only prints conflict messages and changes nothing. -/
theorem runFiles_all_conflicts :
    ∀ (rem : List String) (fs : FS),
      (∀ x ∈ rem, existsTop fs x = true ∧
        (extKey x = "" ∨ existsIn fs (extKey x) x = true)) →
      runFiles fs rem = ⟨fs, rem.map conflictMsg, [], none⟩ := by
  intro rem
  induction rem with
  | nil => intro fs _; rfl
  | cons g rest ih =>
    intro fs h
    obtain ⟨hpres, hcase⟩ := h g (List.mem_cons_self g rest)
    have hstep : processEntry fs g = StepOut.ok fs [conflictMsg g] [] := by
      rcases hcase with hk | hin
      · exact step_emptyKey hk hpres
      · rcases eq_or_ne (extKey g) "" with hk | hk
        · exact step_emptyKey hk hpres
        · exact step_conflict hk hin
    rw [runFiles_cons_ok rest hstep,
      ih fs (fun x hx => h x (List.mem_cons_of_mem g hx))]
    rfl

/-! Aborted runs. -/

theorem mem_of_failedAt {f : String} :
    ∀ (rem : List String) (fs : FS),
      (runFiles fs rem).failedAt = some f → f ∈ rem := by
  intro rem
  induction rem with
  | nil => intro fs h; simp [runFiles_nil] at h
  | cons g rest ih =>
    intro fs h
    cases hpe : processEntry fs g with
    | ok fs2 m e =>
      rw [runFiles_cons_ok rest hpe] at h
      exact List.mem_cons_of_mem g (ih fs2 h)
    | err fs2 e =>
      rw [runFiles_cons_err rest hpe] at h
      obtain rfl : g = f := Option.some.inj h
      exact List.mem_cons_self g rest

/-- When a run over distinct, present names aborts at entry `f`, the
entries listed after `f` are untouched: no conflict message is printed
for them, no move effect with them as source is emitted, and they are
still present at top level. -/
theorem runFiles_abort {x f : String} :
    ∀ (r1 r2 : List String) (fs : FS), (r1 ++ f :: r2).Nodup →
      (∀ y ∈ r1 ++ f :: r2, existsTop fs y = true) →
      (runFiles fs (r1 ++ f :: r2)).failedAt = some f →
      x ∈ r2 →
      conflictMsg x ∉ (runFiles fs (r1 ++ f :: r2)).msgs ∧
        (∀ d, Effect.moveEff [x] d ∉ (runFiles fs (r1 ++ f :: r2)).effs) ∧
        existsTop (runFiles fs (r1 ++ f :: r2)).fs x = true := by
  intro r1
  induction r1 with
  | nil =>
    intro r2 fs hnd hpres habort hx
    rw [List.nil_append] at hnd hpres habort ⊢
    rw [List.nodup_cons] at hnd
    have hxf : x ≠ f := fun he => hnd.1 (he ▸ hx)
    cases hpe : processEntry fs f with
    | ok fs2 m e =>
      rw [runFiles_cons_ok r2 hpe] at habort
      exact absurd (mem_of_failedAt r2 fs2 habort) hnd.1
    | err fs2 e =>
      rw [runFiles_cons_err r2 hpe]
      refine ⟨by simp, ?_, ?_⟩
      · intro d hmem
        have := effects_step fs f (Effect.moveEff [x] d) (by rw [hpe]; exact hmem)
        rcases this with ⟨-, habs⟩ | ⟨-, habs⟩
        · cases habs
        · exact hxf (List.cons.inj (Effect.moveEff.inj habs).1).1
      · have := existsTop_step_of_ne hxf (hpres x (List.mem_cons_of_mem f hx))
        rw [hpe] at this
        exact this
  | cons g r1x ih =>
    intro r2 fs hnd hpres habort hx
    rw [List.cons_append] at hnd hpres habort ⊢
    rw [List.nodup_cons] at hnd
    have hgf : g ≠ f := fun he => hnd.1 (by
      rw [he]
      exact List.mem_append_right r1x (List.mem_cons_self f r2))
    cases hpe : processEntry fs g with
    | err fs2 e =>
      rw [runFiles_cons_err _ hpe] at habort
      exact absurd (Option.some.inj habort) hgf
    | ok fs2 m e =>
      rw [runFiles_cons_ok _ hpe] at habort ⊢
      have hxg : x ≠ g := fun he =>
        hnd.1 (he ▸ List.mem_append_right r1x (List.mem_cons_of_mem f hx))
      obtain ⟨h1, h2, h3⟩ := ih r2 fs2 hnd.2
        (fun y hy => by
          have hyg : y ≠ g := fun he => hnd.1 (he ▸ hy)
          have := existsTop_step_of_ne hyg (hpres y (List.mem_cons_of_mem g hy))
          rw [hpe] at this
          exact this)
        habort hx
      refine ⟨?_, ?_, h3⟩
      · intro hmem
        rcases List.mem_append.mp hmem with hm | hm
        · have := messages_step fs g (conflictMsg x) (by rw [hpe]; exact hm)
          exact hxg (conflictMsg_inj this)
        · exact h1 hm
      · intro d hmem
        rcases List.mem_append.mp hmem with hm | hm
        · have := effects_step fs g (Effect.moveEff [x] d) (by rw [hpe]; exact hm)
          rcases this with ⟨-, habs⟩ | ⟨-, habs⟩
          · cases habs
          · exact hxg (List.cons.inj (Effect.moveEff.inj habs).1).1
        · exact h2 d hm

/-! Folder creation and filling. -/

/-- Once the extension-key folder `E` exists with contents disjoint from
the remaining entries, an exception-free run moves exactly the key-`E`
entries into it, emitting a move effect for each. -/
theorem runFiles_folder_fills {E : String} (hE : '.' ∉ E.data) (hEne : E ≠ "") :
    ∀ (rem : List String) (fs : FS) (cs : List String), rem.Nodup →
      (names fs).Nodup → (∀ x ∈ rem, existsTop fs x = true) →
      (runFiles fs rem).failedAt = none →
      lookupNode fs E = some (Node.dir cs) →
      (∀ x ∈ cs, x ∉ rem) →
      ∃ cs2, lookupNode (runFiles fs rem).fs E = some (Node.dir cs2) ∧
        (∀ x, x ∈ cs2 ↔ x ∈ cs ∨ (x ∈ rem ∧ extKey x = E)) ∧
        (∀ f ∈ rem, extKey f = E →
          Effect.moveEff [f] [E, f] ∈ (runFiles fs rem).effs) := by
  intro rem
  induction rem with
  | nil =>
    intro fs cs _ _ _ _ hlook _
    exact ⟨cs, hlook, fun x => by simp, fun f hf => absurd hf (List.not_mem_nil f)⟩
  | cons g rest ih =>
    intro fs cs hnd hfs hpres hsucc hlook hdisj
    rw [List.nodup_cons] at hnd
    cases hpe : processEntry fs g with
    | err fs2 e =>
      rw [runFiles_cons_err rest hpe] at hsucc
      simp at hsucc
    | ok fs2 m e =>
      rw [runFiles_cons_ok rest hpe] at hsucc ⊢
      have hsucc2 : (runFiles fs2 rest).failedAt = none := hsucc
      by_cases hkg : extKey g = E
      · subst hkg
        have hgnot : extKey g ≠ "" := hEne
        have hgdot : '.' ∈ g.data := dot_mem_of_extKey_ne hgnot
        have hgE : g ≠ extKey g := ne_of_dot hgdot hE
        rcases step_shape fs g with ⟨-, hpath, hstep⟩ | ⟨cs3, hext, hlk, -, hstep⟩ |
          ⟨hext, hlk, hstep⟩ | hstep | ⟨hext, hlk, hstep⟩
        · exfalso
          rw [resolveRel_cons_ne hgnot, resolveRel_cons_ne
            (ne_empty_of_extKey_ne hgnot), resolveRel_nil, pathExists_pair] at hpath
          obtain ⟨cs4, hcs4, hmem4⟩ := existsIn_eq_true_iff.mp hpath
          rw [hlook] at hcs4
          obtain rfl : cs = cs4 := Node.dir.inj (Option.some.inj hcs4)
          exact hdisj g hmem4 (List.mem_cons_self g rest)
        · rw [hstep] at hpe
          obtain ⟨rfl, rfl, rfl⟩ := StepOut.ok.inj hpe
          obtain rfl : cs = cs3 := Node.dir.inj (Option.some.inj (hlook.symm.trans hlk))
          have hl2 : lookupNode (setNode (removeTop fs g) (extKey g)
              (Node.dir (cs ++ [g]))) (extKey g) = some (Node.dir (cs ++ [g])) := by
            rw [lookupNode_setNode_self
              (by rw [lookupNode_removeTop_ne hgE.symm]; exact hlook)]
          obtain ⟨cs2, hlf, hiff, hmv⟩ := ih _ (cs ++ [g]) hnd.2
            (by have := @nodup_names_step fs g hfs; rw [hstep] at this; exact this)
            (fun y hy => by
              have hyg : y ≠ g := fun he => hnd.1 (he ▸ hy)
              have := existsTop_step_of_ne hyg (hpres y (List.mem_cons_of_mem g hy))
              rw [hstep] at this
              exact this)
            hsucc2 hl2
            (fun y hy => by
              rcases List.mem_append.mp hy with hc | hc
              · exact fun hr => hdisj y hc (List.mem_cons_of_mem g hr)
              · rw [List.mem_singleton] at hc
                subst hc
                exact hnd.1)
          refine ⟨cs2, hlf, fun x => ?_, fun f hf hkf => ?_⟩
          · rw [hiff x, List.mem_append, List.mem_singleton, List.mem_cons]
            constructor
            · rintro ((hc | rfl) | ⟨hr, hk⟩)
              · exact Or.inl hc
              · exact Or.inr ⟨Or.inl rfl, rfl⟩
              · exact Or.inr ⟨Or.inr hr, hk⟩
            · rintro (hc | ⟨(rfl | hr), hk⟩)
              · exact Or.inl (Or.inl hc)
              · exact Or.inl (Or.inr rfl)
              · exact Or.inr ⟨hr, hk⟩
          · rcases List.mem_cons.mp hf with rfl | hfr
            · exact List.mem_append_left _ (List.mem_singleton_self _)
            · exact List.mem_append_right _ (hmv f hfr hkf)
        · rw [hlook] at hlk
          simp at hlk
        · rw [hstep] at hpe
          cases hpe
        · rw [hlook] at hlk
          simp at hlk
      · have hlook2 : lookupNode fs2 E = some (Node.dir cs) := by
          by_cases hgEq : g = E
          · subst hgEq
            rw [step_emptyKey (extKey_of_no_dot hE)
              (by unfold existsTop; rw [hlook]; rfl)] at hpe
            obtain ⟨rfl, -, -⟩ := StepOut.ok.inj hpe
            exact hlook
          · have hb := @lookup_step_bystander fs g E
              (fun he => hgEq he.symm) (fun he => hkg he.symm)
            rw [hpe] at hb
            have hb2 : lookupNode fs2 E = lookupNode fs E := hb
            rw [hb2]
            exact hlook
        obtain ⟨cs2, hlf, hiff, hmv⟩ := ih fs2 cs hnd.2
          (by have := @nodup_names_step fs g hfs; rw [hpe] at this; exact this)
          (fun y hy => by
            have hyg : y ≠ g := fun he => hnd.1 (he ▸ hy)
            have := existsTop_step_of_ne hyg (hpres y (List.mem_cons_of_mem g hy))
            rw [hpe] at this
            exact this)
          hsucc2 hlook2
          (fun y hy hr => hdisj y hy (List.mem_cons_of_mem g hr))
        refine ⟨cs2, hlf, fun x => ?_, fun f hf hkf => ?_⟩
        · rw [hiff x, List.mem_cons]
          constructor
          · rintro (hc | ⟨hr, hk⟩)
            · exact Or.inl hc
            · exact Or.inr ⟨Or.inr hr, hk⟩
          · rintro (hc | ⟨(rfl | hr), hk⟩)
            · exact Or.inl hc
            · exact absurd hk hkg
            · exact Or.inr ⟨hr, hk⟩
        · rcases List.mem_cons.mp hf with rfl | hfr
          · exact absurd hkf hkg
          · exact List.mem_append_right _ (hmv f hfr hkf)

/-- When the extension-key folder `E` is initially absent and some
remaining entry has key `E`, an exception-free run creates the folder
(before moving any key-`E` entry into it) and afterwards the folder
holds exactly the key-`E` entries. -/
theorem runFiles_folder_created {E : String} (hE : '.' ∉ E.data) (hEne : E ≠ "") :
    ∀ (rem : List String) (fs : FS), rem.Nodup → (names fs).Nodup →
      (∀ x ∈ rem, existsTop fs x = true) →
      (runFiles fs rem).failedAt = none →
      existsTop fs E = false →
      (∃ f, f ∈ rem ∧ extKey f = E) →
      (∃ l1 l2, (runFiles fs rem).effs = l1 ++ Effect.mkdirEff [E] :: l2 ∧
        ∀ f ∈ rem, extKey f = E → Effect.moveEff [f] [E, f] ∈ l2) ∧
      (∃ cs2, lookupNode (runFiles fs rem).fs E = some (Node.dir cs2) ∧
        ∀ x, x ∈ cs2 ↔ x ∈ rem ∧ extKey x = E) := by
  intro rem
  induction rem with
  | nil =>
    intro fs _ _ _ _ _ hsome
    obtain ⟨f, hf, -⟩ := hsome
    cases hf
  | cons g rest ih =>
    intro fs hnd hfs hpres hsucc habs hsome
    rw [List.nodup_cons] at hnd
    have hlnone : lookupNode fs E = none := by
      unfold existsTop at habs
      cases hl : lookupNode fs E with
      | none => rfl
      | some nd => rw [hl] at habs; simp at habs
    cases hpe : processEntry fs g with
    | err fs2 e =>
      rw [runFiles_cons_err rest hpe] at hsucc
      simp at hsucc
    | ok fs2 m e =>
      rw [runFiles_cons_ok rest hpe] at hsucc ⊢
      have hsucc2 : (runFiles fs2 rest).failedAt = none := hsucc
      by_cases hkg : extKey g = E
      · subst hkg
        have hgnot : extKey g ≠ "" := hEne
        have hgdot : '.' ∈ g.data := dot_mem_of_extKey_ne hgnot
        have hgE : g ≠ extKey g := ne_of_dot hgdot hE
        rcases step_shape fs g with ⟨hfold, -, hstep⟩ | ⟨cs3, hext, hlk, -, hstep⟩ |
          ⟨hext, hlk, hstep⟩ | hstep | ⟨hext, hlk, hstep⟩
        · exfalso
          rw [resolveRel_cons_ne hgnot, resolveRel_nil, pathExists_single] at hfold
          rw [hfold] at habs
          simp at habs
        · rw [hlnone] at hlk
          simp at hlk
        · rw [hstep] at hpe
          obtain ⟨rfl, rfl, rfl⟩ := StepOut.ok.inj hpe
          have hl2 : lookupNode (setNode (removeTop (fs ++ [(extKey g, Node.dir [])]) g)
              (extKey g) (Node.dir [g])) (extKey g) = some (Node.dir [g]) := by
            rw [lookupNode_setNode_self (by
              rw [lookupNode_removeTop_ne hgE.symm, lookupNode_append_right hlk,
                lookupNode, if_pos rfl])]
          obtain ⟨cs2, hlf, hiff, hmv⟩ := runFiles_folder_fills hE hEne rest _ [g]
            hnd.2
            (by have := @nodup_names_step fs g hfs; rw [hstep] at this; exact this)
            (fun y hy => by
              have hyg : y ≠ g := fun he => hnd.1 (he ▸ hy)
              have := existsTop_step_of_ne hyg (hpres y (List.mem_cons_of_mem g hy))
              rw [hstep] at this
              exact this)
            hsucc2 hl2
            (fun y hy => by
              rw [List.mem_singleton] at hy
              subst hy
              exact hnd.1)
          refine ⟨⟨[], _, rfl, fun f hf hkf => ?_⟩, ⟨cs2, hlf, fun x => ?_⟩⟩
          · rcases List.mem_cons.mp hf with rfl | hfr
            · exact List.mem_cons_self _ _
            · exact List.mem_cons_of_mem _ (hmv f hfr hkf)
          · rw [hiff x, List.mem_singleton, List.mem_cons]
            constructor
            · rintro (rfl | ⟨hr, hk⟩)
              · exact ⟨Or.inl rfl, rfl⟩
              · exact ⟨Or.inr hr, hk⟩
            · rintro ⟨(rfl | hr), hk⟩
              · exact Or.inl rfl
              · exact Or.inr ⟨hr, hk⟩
        · rw [hstep] at hpe
          cases hpe
        · rw [hstep] at hpe
          cases hpe
      · obtain ⟨f0, hf0, hk0⟩ := hsome
        have hf0r : f0 ∈ rest := by
          rcases List.mem_cons.mp hf0 with rfl | hr
          · exact absurd hk0 hkg
          · exact hr
        have hgEne : g ≠ E := fun he => by
          rw [← he] at habs
          rw [hpres g (List.mem_cons_self g rest)] at habs
          simp at habs
        have habs2 : existsTop fs2 E = false := by
          have hb := @lookup_step_bystander fs g E
            (fun he => hgEne he.symm) (fun he => hkg he.symm)
          rw [hpe] at hb
          have hb2 : lookupNode fs2 E = lookupNode fs E := hb
          unfold existsTop
          rw [hb2, hlnone]
          rfl
        obtain ⟨⟨l1, l2, heq, hmv⟩, ⟨cs2, hlf, hiff⟩⟩ := ih fs2 hnd.2
          (by have := @nodup_names_step fs g hfs; rw [hpe] at this; exact this)
          (fun y hy => by
            have hyg : y ≠ g := fun he => hnd.1 (he ▸ hy)
            have := existsTop_step_of_ne hyg (hpres y (List.mem_cons_of_mem g hy))
            rw [hpe] at this
            exact this)
          hsucc2 habs2 ⟨f0, hf0r, hk0⟩
        refine ⟨⟨e ++ l1, l2, ?_, fun f hf hkf => ?_⟩, ⟨cs2, hlf, fun x => ?_⟩⟩
        · show e ++ (runFiles fs2 rest).effs = e ++ l1 ++ (Effect.mkdirEff [E] :: l2)
          rw [heq, List.append_assoc]
        · rcases List.mem_cons.mp hf with rfl | hfr
          · exact absurd hkf hkg
          · exact hmv f hfr hkf
        · rw [hiff x, List.mem_cons]
          constructor
          · rintro ⟨hr, hk⟩
            exact ⟨Or.inr hr, hk⟩
          · rintro ⟨(rfl | hr), hk⟩
            · exact absurd hk hkg
            · exact ⟨hr, hk⟩

/-! Empty extension keys, effect shapes, and the key characterization. -/

/-- In an exception-free run over distinct, present names, an entry with
an empty extension key is reported as a conflict (with itself), stays at
top level, and is never the source of a move. -/
theorem runFiles_emptyKey {f : String} (hkey : extKey f = "") :
    ∀ (rem : List String) (fs : FS), rem.Nodup →
      (∀ x ∈ rem, existsTop fs x = true) →
      (runFiles fs rem).failedAt = none →
      f ∈ rem →
      conflictMsg f ∈ (runFiles fs rem).msgs ∧
        existsTop (runFiles fs rem).fs f = true ∧
        (∀ d, Effect.moveEff [f] d ∉ (runFiles fs rem).effs) := by
  intro rem
  induction rem with
  | nil => intro fs _ _ _ hf; cases hf
  | cons g rest ih =>
    intro fs hnd hpres hsucc hf
    rw [List.nodup_cons] at hnd
    by_cases hgf : g = f
    · subst hgf
      have hstep := step_emptyKey hkey (hpres g (List.mem_cons_self g rest))
      rw [runFiles_cons_ok rest hstep] at hsucc ⊢
      refine ⟨List.mem_append_left _ (List.mem_singleton_self _), ?_, ?_⟩
      · exact runFiles_existsTop rest fs hnd.1 (hpres g (List.mem_cons_self g rest))
      · intro d hmem
        rcases List.mem_append.mp hmem with hm | hm
        · simp at hm
        · exact runFiles_no_moveEff rest fs hnd.1 d hm
    · cases hpe : processEntry fs g with
      | err fs2 e =>
        rw [runFiles_cons_err rest hpe] at hsucc
        simp at hsucc
      | ok fs2 m e =>
        rw [runFiles_cons_ok rest hpe] at hsucc ⊢
        have hfr : f ∈ rest := by
          rcases List.mem_cons.mp hf with he | hr
          · exact absurd he.symm hgf
          · exact hr
        obtain ⟨h1, h2, h3⟩ := ih fs2 hnd.2
          (fun x hx => by
            have hxg : x ≠ g := fun he => hnd.1 (he ▸ hx)
            have := existsTop_step_of_ne hxg (hpres x (List.mem_cons_of_mem g hx))
            rw [hpe] at this
            exact this)
          hsucc hfr
        refine ⟨List.mem_append_right m h1, h2, ?_⟩
        intro d hmem
        rcases List.mem_append.mp hmem with hm | hm
        · have := effects_step fs g (Effect.moveEff [f] d) (by rw [hpe]; exact hm)
          rcases this with ⟨-, habs⟩ | ⟨-, habs⟩
          · cases habs
          · exact hgf (List.cons.inj (Effect.moveEff.inj habs).1).1.symm
        · exact h3 d hm

/-- Every effect of a run is the creation of a directory named by a
nonempty extension key directly below the target, or the move of an
entry from the target into such a directory. -/
theorem runFiles_effects :
    ∀ (rem : List String) (fs : FS) (eff : Effect),
      eff ∈ (runFiles fs rem).effs →
      ∃ g, (extKey g ≠ "" ∧ eff = Effect.mkdirEff [extKey g]) ∨
        (extKey g ≠ "" ∧ eff = Effect.moveEff [g] [extKey g, g]) := by
  intro rem
  induction rem with
  | nil => intro fs eff h; simp [runFiles_nil] at h
  | cons g rest ih =>
    intro fs eff h
    cases hpe : processEntry fs g with
    | ok fs2 m e =>
      rw [runFiles_cons_ok rest hpe] at h
      rcases List.mem_append.mp h with hm | hm
      · exact ⟨g, effects_step fs g eff (by rw [hpe]; exact hm)⟩
      · exact ih fs2 eff hm
    | err fs2 e =>
      rw [runFiles_cons_err rest hpe] at h
      exact ⟨g, effects_step fs g eff (by rw [hpe]; exact h)⟩

/-- The extension of `os.path.splitext` on a separator-free name with a
dot at (last) index `d`. -/
theorem splitextExt_no_sep {p : List Char} (hsep : '/' ∉ p) {d : Nat}
    (hd : rfindIdx '.' p = some d) :
    splitextExt p = if (p.take d).any (fun ch => ch != '.') then p.drop d
      else [] := by
  unfold splitextExt
  rw [hd]
  simp only [rfindIdx_eq_none_of_not_mem hsep]
  rw [if_pos (Nat.zero_le d), List.drop_zero, Nat.sub_zero]

/-! The claims. -/

/-- C1, counterexample: as stated, the claim fails. In a directory
containing only `README` (extension key empty) the run succeeds but the
entry does not reside in an extension-key subfolder and is still at
`<target>/README`; and when `txt/a.txt` already exists, `a.txt` is
skipped as a conflict and also stays at `<target>/a.txt`. -/
theorem claim1_cex :
    ((run [("README", Node.file)]).failedAt = none ∧
      "README" ∈ names [("README", Node.file)] ∧
      ¬(existsIn (run [("README", Node.file)]).fs (extKey "README") "README" = true ∧
        existsTop (run [("README", Node.file)]).fs "README" = false)) ∧
    ((run [("txt", Node.dir ["a.txt"]), ("a.txt", Node.file)]).failedAt = none ∧
      "a.txt" ∈ names [("txt", Node.dir ["a.txt"]), ("a.txt", Node.file)] ∧
      extKey "a.txt" ≠ "" ∧
      ¬(existsIn (run [("txt", Node.dir ["a.txt"]), ("a.txt", Node.file)]).fs
          (extKey "a.txt") "a.txt" = true ∧
        existsTop (run [("txt", Node.dir ["a.txt"]), ("a.txt", Node.file)]).fs
          "a.txt" = false)) := by
  decide

/-- C1 (amended): for every direct entry with a nonempty extension key
`E` that is not skipped as a conflict, after a successful run the entry
resides at `<target>/<E>/<name>` and no longer at `<target>/<name>`. -/
theorem claim1_organizes (fs : FS) (hnod : (names fs).Nodup)
    (hsucc : (run fs).failedAt = none) (f : String) (hf : f ∈ names fs)
    (hkey : extKey f ≠ "") (hnc : conflictMsg f ∉ (run fs).msgs) :
    existsIn (run fs).fs (extKey f) f = true ∧
      existsTop (run fs).fs f = false :=
  runFiles_moves hkey (names fs) fs hnod hnod
    (fun _ hx => existsTop_of_mem_names hx) hsucc hf hnc

/-- C1 witness: `a.txt` alone is moved to `txt/a.txt`. -/
theorem claim1_organizes_witness :
    (names [("a.txt", Node.file)]).Nodup ∧
    (run [("a.txt", Node.file)]).failedAt = none ∧
    "a.txt" ∈ names [("a.txt", Node.file)] ∧
    extKey "a.txt" ≠ "" ∧
    conflictMsg "a.txt" ∉ (run [("a.txt", Node.file)]).msgs ∧
    (existsIn (run [("a.txt", Node.file)]).fs (extKey "a.txt") "a.txt" = true ∧
      existsTop (run [("a.txt", Node.file)]).fs "a.txt" = false) :=
  ⟨by decide, by decide, by decide, by decide, by decide,
    claim1_organizes [("a.txt", Node.file)] (by decide) (by decide) "a.txt"
      (by decide) (by decide) (by decide)⟩

/-- C2, counterexample: for the dotfile `.bashrc` the portion after the
final dot is `bashrc`, but the computed extension key is empty, because
`os.path.splitext` ignores leading dots. -/
theorem claim2_cex :
    extKey ".bashrc" = "" ∧ specExtKey ".bashrc" = "bashrc" ∧
      extKey ".bashrc" ≠ specExtKey ".bashrc" := by
  decide

/-- C2 (amended): on a separator-free name, the computed extension key
equals the portion after the final dot provided some character before
that dot is not itself a dot; otherwise (no dot at all, or a final dot
preceded only by dots, as in dotfiles) the key is the empty string. -/
theorem claim2_key_rule (name : String) (hsep : '/' ∉ name.data) :
    extKey name =
      match rfindIdx '.' name.data with
      | none => ""
      | some d =>
        if (name.data.take d).any (fun ch => ch != '.') then specExtKey name
        else "" := by
  cases hd : rfindIdx '.' name.data with
  | none =>
    have h1 : splitextExt name.data = [] := by
      unfold splitextExt
      rw [hd]
    unfold extKey
    rw [h1]
    rfl
  | some d =>
    have h1 := splitextExt_no_sep hsep hd
    unfold extKey
    rw [h1]
    by_cases hany : (name.data.take d).any (fun ch => ch != '.') = true
    · rw [if_pos hany]
      show String.mk ((name.data.drop d).drop 1) =
        if (name.data.take d).any (fun ch => ch != '.') then specExtKey name else ""
      rw [if_pos hany]
      unfold specExtKey
      rw [hd, List.drop_drop]
    · rw [if_neg hany]
      show String.mk (List.drop 1 []) =
        if (name.data.take d).any (fun ch => ch != '.') then specExtKey name else ""
      rw [if_neg hany]
      rfl

/-- C2 witness: `archive.tar.gz` gets key `gz`, the portion after the
final dot. -/
theorem claim2_key_rule_witness :
    '/' ∉ "archive.tar.gz".data ∧
    extKey "archive.tar.gz" =
      (match rfindIdx '.' "archive.tar.gz".data with
       | none => ""
       | some d =>
         if ("archive.tar.gz".data.take d).any (fun ch => ch != '.') then
           specExtKey "archive.tar.gz"
         else "") :=
  ⟨by decide, claim2_key_rule "archive.tar.gz" (by decide)⟩

/-- C3: an entry (nonempty key) whose destination folder already holds a
same-named entry is reported as a conflict; in a successful run the
source keeps its node at top level and the pre-existing destination
entry is still there. -/
theorem claim3_conflict_preserved (fs : FS) (hnod : (names fs).Nodup)
    (hsucc : (run fs).failedAt = none) (f : String) (hf : f ∈ names fs)
    (hkey : extKey f ≠ "") (hpre : existsIn fs (extKey f) f = true) :
    conflictMsg f ∈ (run fs).msgs ∧
      lookupNode (run fs).fs f = lookupNode fs f ∧
      existsIn (run fs).fs (extKey f) f = true :=
  runFiles_conflict hkey (names fs) fs hnod hnod
    (fun _ hx => existsTop_of_mem_names hx) hsucc hf hpre

/-- C3 witness: with `txt/a.txt` pre-existing, the incoming `a.txt` is
reported and both copies survive. -/
theorem claim3_conflict_preserved_witness :
    (names [("txt", Node.dir ["a.txt"]), ("a.txt", Node.file)]).Nodup ∧
    (run [("txt", Node.dir ["a.txt"]), ("a.txt", Node.file)]).failedAt = none ∧
    "a.txt" ∈ names [("txt", Node.dir ["a.txt"]), ("a.txt", Node.file)] ∧
    extKey "a.txt" ≠ "" ∧
    existsIn [("txt", Node.dir ["a.txt"]), ("a.txt", Node.file)]
      (extKey "a.txt") "a.txt" = true ∧
    (conflictMsg "a.txt" ∈
        (run [("txt", Node.dir ["a.txt"]), ("a.txt", Node.file)]).msgs ∧
      lookupNode (run [("txt", Node.dir ["a.txt"]), ("a.txt", Node.file)]).fs
          "a.txt" =
        lookupNode [("txt", Node.dir ["a.txt"]), ("a.txt", Node.file)] "a.txt" ∧
      existsIn (run [("txt", Node.dir ["a.txt"]), ("a.txt", Node.file)]).fs
        (extKey "a.txt") "a.txt" = true) :=
  ⟨by decide, by decide, by decide, by decide, by decide,
    claim3_conflict_preserved [("txt", Node.dir ["a.txt"]), ("a.txt", Node.file)]
      (by decide) (by decide) "a.txt" (by decide) (by decide) (by decide)⟩

/-- C4, counterexample: as stated, the claim fails. After a run on a
directory containing only `README`, no top-level folder named by the
empty string exists, `README` has not been moved into any such folder,
and in fact no filesystem effect was performed at all. -/
theorem claim4_cex :
    (run [("README", Node.file)]).failedAt = none ∧
    existsTop (run [("README", Node.file)]).fs "" = false ∧
    existsIn (run [("README", Node.file)]).fs "" "README" = false ∧
    (run [("README", Node.file)]).effs = [] := by
  decide

/-- C4 (amended): an entry with no extension is never grouped anywhere:
its empty key makes the destination folder path resolve to the target
directory itself, so the entry stays at `<target>/<name>`; the path
`<target>/<empty key>/<name>` resolves to `<target>/<name>` and does
exist after the run. -/
theorem claim4_empty_key (fs : FS) (hnod : (names fs).Nodup)
    (hsucc : (run fs).failedAt = none) (f : String) (hf : f ∈ names fs)
    (hkey : extKey f = "") (hne : f ≠ "") :
    resolveRel [extKey f] = [] ∧
    resolveRel [extKey f, f] = [f] ∧
    existsTop (run fs).fs f = true ∧
    pathExists (run fs).fs (resolveRel [extKey f, f]) = true := by
  obtain ⟨-, h2, -⟩ := runFiles_emptyKey hkey (names fs) fs hnod
    (fun x hx => existsTop_of_mem_names hx) hsucc hf
  have hres : resolveRel [extKey f, f] = [f] := by
    rw [hkey, resolveRel_cons_empty, resolveRel_cons_ne hne, resolveRel_nil]
  refine ⟨?_, hres, h2, ?_⟩
  · rw [hkey, resolveRel_cons_empty, resolveRel_nil]
  · rw [hres, pathExists_single]
    exact h2

/-- C4 witness: the `README` scenario. -/
theorem claim4_empty_key_witness :
    (names [("README", Node.file)]).Nodup ∧
    (run [("README", Node.file)]).failedAt = none ∧
    "README" ∈ names [("README", Node.file)] ∧
    extKey "README" = "" ∧
    "README" ≠ "" ∧
    (resolveRel [extKey "README"] = [] ∧
      resolveRel [extKey "README", "README"] = ["README"] ∧
      existsTop (run [("README", Node.file)]).fs "README" = true ∧
      pathExists (run [("README", Node.file)]).fs
        (resolveRel [extKey "README", "README"]) = true) :=
  ⟨by decide, by decide, by decide, by decide, by decide,
    claim4_empty_key [("README", Node.file)] (by decide) (by decide) "README"
      (by decide) (by decide) (by decide)⟩

/-- C5, counterexample: as stated, the claim fails. With entries `txt`
(a plain file), `a.txt`, `b.jpg`, the move of `a.txt` fails (its
destination parent `txt` is a file, so the rename raises), the run
aborts there: nothing is reported for `a.txt`, and `b.jpg` is never
processed (no effects at all, entry untouched). -/
theorem claim5_cex :
    (run [("txt", Node.file), ("a.txt", Node.file), ("b.jpg", Node.file)]).failedAt
        = some "a.txt" ∧
    (run [("txt", Node.file), ("a.txt", Node.file), ("b.jpg", Node.file)]).msgs
        = [conflictMsg "txt"] ∧
    (run [("txt", Node.file), ("a.txt", Node.file), ("b.jpg", Node.file)]).effs
        = [] ∧
    existsTop
      (run [("txt", Node.file), ("a.txt", Node.file), ("b.jpg", Node.file)]).fs
      "b.jpg" = true := by
  decide

/-- C5 (amended): a move failure is fatal for the whole run: the
uncaught exception aborts it at the failing entry, and every entry
listed after it is not processed at all — no conflict report, no move,
still present at top level. -/
theorem claim5_abort_fatal (fs : FS) (hnod : (names fs).Nodup) (f x : String)
    (r1 r2 : List String) (hsplit : names fs = r1 ++ f :: r2)
    (habort : (run fs).failedAt = some f) (hx : x ∈ r2) :
    conflictMsg x ∉ (run fs).msgs ∧
      (∀ d, Effect.moveEff [x] d ∉ (run fs).effs) ∧
      existsTop (run fs).fs x = true := by
  have hnod2 : (r1 ++ f :: r2).Nodup := by
    rw [← hsplit]
    exact hnod
  have hpres : ∀ y ∈ r1 ++ f :: r2, existsTop fs y = true := fun y hy =>
    existsTop_of_mem_names (by rw [hsplit]; exact hy)
  have habort2 : (runFiles fs (r1 ++ f :: r2)).failedAt = some f := by
    rw [← hsplit]
    exact habort
  have hmain := runFiles_abort r1 r2 fs hnod2 hpres habort2 hx
  rw [show run fs = runFiles fs (names fs) from rfl, hsplit]
  exact hmain

/-- C5 witness: in the aborted run above, `b.jpg` (listed after the
failing `a.txt`) is untouched. -/
theorem claim5_abort_fatal_witness :
    (names [("txt", Node.file), ("a.txt", Node.file), ("b.jpg", Node.file)]).Nodup ∧
    names [("txt", Node.file), ("a.txt", Node.file), ("b.jpg", Node.file)] =
      ["txt"] ++ "a.txt" :: ["b.jpg"] ∧
    (run [("txt", Node.file), ("a.txt", Node.file), ("b.jpg", Node.file)]).failedAt
      = some "a.txt" ∧
    "b.jpg" ∈ ["b.jpg"] ∧
    (conflictMsg "b.jpg" ∉
        (run [("txt", Node.file), ("a.txt", Node.file), ("b.jpg", Node.file)]).msgs ∧
      (∀ d, Effect.moveEff ["b.jpg"] d ∉
        (run [("txt", Node.file), ("a.txt", Node.file), ("b.jpg", Node.file)]).effs) ∧
      existsTop
        (run [("txt", Node.file), ("a.txt", Node.file), ("b.jpg", Node.file)]).fs
        "b.jpg" = true) :=
  ⟨by decide, by decide, by decide, by decide,
    claim5_abort_fatal [("txt", Node.file), ("a.txt", Node.file), ("b.jpg", Node.file)]
      (by decide) "a.txt" "b.jpg" ["txt"] ["b.jpg"] (by decide) (by decide)
      (by decide)⟩

/-- C6: running the organizer a second time on the directory left by a
successful run is a no-op: the state is unchanged, no filesystem effect
is performed, no exception occurs, and only skip warnings are printed. -/
theorem claim6_idempotent (fs : FS) (hnod : (names fs).Nodup)
    (hsucc : (run fs).failedAt = none) :
    run ((run fs).fs) =
      ⟨(run fs).fs, (names ((run fs).fs)).map conflictMsg, [], none⟩ := by
  have horg := runFiles_organized (names fs) fs hnod hsucc (fun y hy => Or.inl hy)
  exact runFiles_all_conflicts (names ((run fs).fs)) ((run fs).fs)
    (fun x hx => ⟨existsTop_of_mem_names hx, horg x hx⟩)

/-- C6 witness: organizing `a.txt`, then re-running on the result. -/
theorem claim6_idempotent_witness :
    (names [("a.txt", Node.file)]).Nodup ∧
    (run [("a.txt", Node.file)]).failedAt = none ∧
    run ((run [("a.txt", Node.file)]).fs) =
      ⟨(run [("a.txt", Node.file)]).fs,
        (names ((run [("a.txt", Node.file)]).fs)).map conflictMsg, [], none⟩ :=
  ⟨by decide, by decide,
    claim6_idempotent [("a.txt", Node.file)] (by decide) (by decide)⟩

/-- C7: when the target directory is missing or unreadable, `os.listdir`
raises before the loop starts: the run ends in an access error with the
directory state untouched and no entry processed. -/
theorem claim7_access_error (fs : FS) :
    organizer false fs = ProgResult.accessError fs := rfl

/-- C8: for an entry whose extension-key folder does not exist at the
start of a successful run, the folder is created before the entry is
moved (the mkdir effect precedes the move effect), the move preserves
the name, and afterwards the folder holds exactly the entries of that
key. -/
theorem claim8_folder_created (fs : FS) (hnod : (names fs).Nodup)
    (hsucc : (run fs).failedAt = none) (f : String) (hf : f ∈ names fs)
    (hfold : pathExists fs (resolveRel [extKey f]) = false) :
    (∃ l1 l2, (run fs).effs = l1 ++ Effect.mkdirEff [extKey f] :: l2 ∧
      Effect.moveEff [f] [extKey f, f] ∈ l2) ∧
    (∃ cs, lookupNode (run fs).fs (extKey f) = some (Node.dir cs) ∧
      ∀ x, x ∈ cs ↔ (x ∈ names fs ∧ extKey x = extKey f)) := by
  have hkey : extKey f ≠ "" := by
    intro he
    rw [he] at hfold
    simp [resolveRel, pathExists] at hfold
  have habs : existsTop fs (extKey f) = false := by
    rw [resolveRel_cons_ne hkey, resolveRel_nil, pathExists_single] at hfold
    exact hfold
  obtain ⟨⟨l1, l2, heq, hmv⟩, hcont⟩ := runFiles_folder_created
    (extKey_no_dot f) hkey (names fs) fs hnod hnod
    (fun x hx => existsTop_of_mem_names hx) hsucc habs ⟨f, hf, rfl⟩
  exact ⟨⟨l1, l2, heq, hmv f hf rfl⟩, hcont⟩

/-- C8 witness: `a.txt` and `b.txt` in a fresh directory end up as the
exact contents of the created `txt` folder. -/
theorem claim8_folder_created_witness :
    (names [("a.txt", Node.file), ("b.txt", Node.file)]).Nodup ∧
    (run [("a.txt", Node.file), ("b.txt", Node.file)]).failedAt = none ∧
    "a.txt" ∈ names [("a.txt", Node.file), ("b.txt", Node.file)] ∧
    pathExists [("a.txt", Node.file), ("b.txt", Node.file)]
      (resolveRel [extKey "a.txt"]) = false ∧
    ((∃ l1 l2, (run [("a.txt", Node.file), ("b.txt", Node.file)]).effs =
        l1 ++ Effect.mkdirEff [extKey "a.txt"] :: l2 ∧
        Effect.moveEff ["a.txt"] [extKey "a.txt", "a.txt"] ∈ l2) ∧
      (∃ cs, lookupNode (run [("a.txt", Node.file), ("b.txt", Node.file)]).fs
          (extKey "a.txt") = some (Node.dir cs) ∧
        ∀ x, x ∈ cs ↔ (x ∈ names [("a.txt", Node.file), ("b.txt", Node.file)] ∧
          extKey x = extKey "a.txt"))) :=
  ⟨by decide, by decide, by decide, by decide,
    claim8_folder_created [("a.txt", Node.file), ("b.txt", Node.file)]
      (by decide) (by decide) "a.txt" (by decide) (by decide)⟩

/-- C9: every filesystem effect of a run is either the creation of a
subdirectory (named by a nonempty extension key) directly under the
target path, or the move of an entry from the target path into such a
subdirectory; no path outside the target directory tree is touched. -/
theorem claim9_frame (fs : FS) (eff : Effect) (heff : eff ∈ (run fs).effs) :
    (∃ e, e ≠ "" ∧ eff = Effect.mkdirEff [e]) ∨
    (∃ e f, e ≠ "" ∧ eff = Effect.moveEff [f] [e, f]) := by
  obtain ⟨g, hg | hg⟩ := runFiles_effects (names fs) fs eff heff
  · exact Or.inl ⟨extKey g, hg.1, hg.2⟩
  · exact Or.inr ⟨extKey g, g, hg.1, hg.2⟩

/-- C9 witness: the mkdir effect of organizing `a.txt`. -/
theorem claim9_frame_witness :
    Effect.mkdirEff ["txt"] ∈ (run [("a.txt", Node.file)]).effs ∧
    ((∃ e, e ≠ "" ∧ Effect.mkdirEff ["txt"] = Effect.mkdirEff [e]) ∨
      (∃ e f, e ≠ "" ∧ Effect.mkdirEff ["txt"] = Effect.moveEff [f] [e, f])) :=
  ⟨by decide,
    claim9_frame [("a.txt", Node.file)] (Effect.mkdirEff ["txt"]) (by decide)⟩

/-- C10: an entry whose computed extension key is empty (no dot, or a
dotfile such as `.bashrc`) is never moved: the destination folder path
resolves to the target directory itself and the destination path to the
entry's own path, so the existence checks fire the conflict branch, the
already-exists message is printed, and the entry stays at top level. -/
theorem claim10_empty_key_self_conflict (fs : FS) (hnod : (names fs).Nodup)
    (hsucc : (run fs).failedAt = none) (f : String) (hf : f ∈ names fs)
    (hkey : extKey f = "") :
    resolveRel [extKey f] = [] ∧
    resolveRel [extKey f, f] = resolveRel [f] ∧
    conflictMsg f ∈ (run fs).msgs ∧
    existsTop (run fs).fs f = true ∧
    (∀ d, Effect.moveEff [f] d ∉ (run fs).effs) := by
  obtain ⟨h1, h2, h3⟩ := runFiles_emptyKey hkey (names fs) fs hnod
    (fun x hx => existsTop_of_mem_names hx) hsucc hf
  refine ⟨?_, ?_, h1, h2, h3⟩
  · rw [hkey, resolveRel_cons_empty, resolveRel_nil]
  · rw [hkey, resolveRel_cons_empty]

/-- C10 witness: the dotfile `.bashrc` is reported and never moved. -/
theorem claim10_empty_key_self_conflict_witness :
    (names [(".bashrc", Node.file)]).Nodup ∧
    (run [(".bashrc", Node.file)]).failedAt = none ∧
    ".bashrc" ∈ names [(".bashrc", Node.file)] ∧
    extKey ".bashrc" = "" ∧
    (resolveRel [extKey ".bashrc"] = [] ∧
      resolveRel [extKey ".bashrc", ".bashrc"] = resolveRel [".bashrc"] ∧
      conflictMsg ".bashrc" ∈ (run [(".bashrc", Node.file)]).msgs ∧
      existsTop (run [(".bashrc", Node.file)]).fs ".bashrc" = true ∧
      (∀ d, Effect.moveEff [".bashrc"] d ∉ (run [(".bashrc", Node.file)]).effs)) :=
  ⟨by decide, by decide, by decide, by decide,
    claim10_empty_key_self_conflict [(".bashrc", Node.file)] (by decide)
      (by decide) ".bashrc" (by decide) (by decide)⟩

end FileOrganizer
